import Mathlib

/-!
Verification development for the pyentropy maximum-entropy solver
(`pyentropy/maxent.py`, class `AmariSolve`) and the base-conversion
utilities it uses (`utils.py`, `dec2base` / `base2dec`).

Vectors are modelled as `List` over `ℚ` (for the exact combinatorial /
linear parts) or `ℝ` (for the exponential-family parts); sparse matrices
are modelled as a dimension pair together with an entry function; numpy
operations that raise on dimension mismatch return `Option` / `Except`.
-/

namespace Pyent

/-- `dec2base x b digits` (utils.py): row of base-`b` digits of `x`, most
significant first; digit `j` is `floor(mod(x, b*power)/power)` with
`power = b^(digits-1-j)`. -/
def dec2base (x b digits : Nat) : List Nat :=
  (List.range digits).map (fun j => x % (b * b ^ (digits - 1 - j)) / b ^ (digits - 1 - j))

/-- `base2dec w b` (utils.py): dot product of the word `w` with the
descending powers `b^(L-1), ..., b^0` where `L = w.length`. -/
def base2dec (w : List Nat) (b : Nat) : Nat :=
  (List.zipWith (fun d p => d * p) w ((List.range w.length).reverse.map (b ^ ·))).sum

theorem dec2base_length (x b digits : Nat) : (dec2base x b digits).length = digits := by
  simp [dec2base]

/-- Each digit produced by `dec2base` is `x / b^(digits-1-j) % b`. -/
theorem dec2base_digit (x b digits j : Nat) (hj : j < digits) :
    (dec2base x b digits).getD j 0 = x / b ^ (digits - 1 - j) % b := by
  unfold dec2base
  rw [List.getD_eq_getElem?_getD, List.getElem?_map, List.getElem?_range hj]
  simp only [Option.map_some', Option.getD_some]
  rw [Nat.mul_comm b (b ^ (digits - 1 - j)), Nat.mod_mul_right_div_self]

theorem dec2base_zero_digits (x b : Nat) : dec2base x b 0 = [] := rfl

/-- Structural unfolding: the most significant digit followed by the rest. -/
theorem dec2base_succ (x b n : Nat) :
    dec2base x b (n + 1) = (x / b ^ n % b) :: dec2base x b n := by
  simp only [dec2base, List.range_succ_eq_map, List.map_cons, List.map_map]
  congr 1
  · have hidx : n + 1 - 1 - 0 = n := by omega
    rw [hidx, Nat.mul_comm b (b ^ n), Nat.mod_mul_right_div_self]
  · apply List.map_congr_left
    intro j hj
    simp only [Function.comp_apply, Nat.succ_eq_add_one]
    have hidx : n + 1 - 1 - (j + 1) = n - 1 - j := by omega
    rw [hidx]

theorem base2dec_nil (b : Nat) : base2dec [] b = 0 := rfl

theorem base2dec_cons (d : Nat) (w : List Nat) (b : Nat) :
    base2dec (d :: w) b = d * b ^ w.length + base2dec w b := by
  simp only [base2dec, List.length_cons, List.range_succ, List.reverse_append,
    List.reverse_cons, List.reverse_nil, List.nil_append, List.singleton_append,
    List.map_cons, List.zipWith_cons_cons, List.sum_cons]

/-- digits below `b` make `base2dec` strictly bounded by `b^length`. -/
theorem base2dec_lt (w : List Nat) (b : Nat)
    (hd : ∀ d ∈ w, d < b) : base2dec w b < b ^ w.length := by
  induction w with
  | nil => simp [base2dec_nil]
  | cons d w ih =>
      have hdb : d + 1 ≤ b := hd d (List.mem_cons_self d w)
      have hw : base2dec w b < b ^ w.length := ih (fun e he => hd e (List.mem_cons_of_mem d he))
      calc base2dec (d :: w) b = d * b ^ w.length + base2dec w b := base2dec_cons d w b
        _ < d * b ^ w.length + b ^ w.length := Nat.add_lt_add_left hw _
        _ = (d + 1) * b ^ w.length := by ring
        _ ≤ b * b ^ w.length := mul_le_mul_right' hdb _
        _ = b ^ (d :: w).length := by rw [List.length_cons]; ring

/-- `base2dec` of the digit expansion recovers the value modulo `b^n`. -/
theorem base2dec_dec2base_mod (x b n : Nat) :
    base2dec (dec2base x b n) b = x % b ^ n := by
  induction n with
  | zero => simp [dec2base_zero_digits, base2dec_nil, Nat.mod_one]
  | succ n ih =>
      rw [dec2base_succ, base2dec_cons, dec2base_length, ih]
      have hpow : b ^ (n + 1) = b ^ n * b := by ring
      have hsplit := Nat.div_add_mod (x % (b ^ n * b)) (b ^ n)
      have h1 : x % (b ^ n * b) % b ^ n = x % b ^ n :=
        Nat.mod_mod_of_dvd x ⟨b, rfl⟩
      have h2 : x % (b ^ n * b) / b ^ n = x / b ^ n % b :=
        Nat.mod_mul_right_div_self x (b ^ n) b
      rw [h1, h2, Nat.mul_comm (b ^ n) (x / b ^ n % b)] at hsplit
      rw [hpow]
      omega

theorem base2dec_dec2base (x b n : Nat) (hx : x < b ^ n) :
    base2dec (dec2base x b n) b = x := by
  rw [base2dec_dec2base_mod, Nat.mod_eq_of_lt hx]

/-- Each digit produced by `dec2base` is below the base. -/
theorem dec2base_mem_lt (x b digits : Nat) (hb : 1 ≤ b) :
    ∀ d ∈ dec2base x b digits, d < b := by
  intro d hd
  simp only [dec2base, List.mem_map, List.mem_range] at hd
  obtain ⟨j, _, rfl⟩ := hd
  rw [Nat.mul_comm b (b ^ (digits - 1 - j)), Nat.mod_mul_right_div_self]
  exact Nat.mod_lt _ hb

/-- The digit expansion only depends on the value modulo `b^digits`. -/
theorem dec2base_mod_pow (v b L : Nat) :
    dec2base (v % b ^ L) b L = dec2base v b L := by
  induction L generalizing v with
  | zero => rfl
  | succ L ih =>
      rw [dec2base_succ, dec2base_succ]
      have htail : dec2base (v % b ^ (L + 1)) b L = dec2base v b L := by
        have h1 : dec2base (v % b ^ (L + 1) % b ^ L) b L =
            dec2base (v % b ^ (L + 1)) b L := ih _
        have h2 : v % b ^ (L + 1) % b ^ L = v % b ^ L :=
          Nat.mod_mod_of_dvd v ⟨b, by ring⟩
        rw [h2] at h1
        rw [← h1, ih]
      have hhead : v % b ^ (L + 1) / b ^ L % b = v / b ^ L % b := by
        have : v % (b ^ L * b) / b ^ L = v / b ^ L % b :=
          Nat.mod_mul_right_div_self v (b ^ L) b
        rw [pow_succ, this, Nat.mod_mod_of_dvd _ dvd_rfl]
      rw [htail, hhead]

/-- Words with in-range digits are recovered from their decimal value. -/
theorem dec2base_base2dec (w : List Nat) (b : Nat) (hb : 1 ≤ b)
    (hd : ∀ d ∈ w, d < b) : dec2base (base2dec w b) b w.length = w := by
  induction w with
  | nil => rfl
  | cons d w ih =>
      have hdb : d < b := hd d (List.mem_cons_self d w)
      have hr : base2dec w b < b ^ w.length :=
        base2dec_lt w b (fun e he => hd e (List.mem_cons_of_mem d he))
      have hpow : 0 < b ^ w.length := Nat.pos_pow_of_pos _ hb
      rw [base2dec_cons, List.length_cons, dec2base_succ]
      congr 1
      · rw [Nat.mul_comm d (b ^ w.length)]
        rw [Nat.mul_add_div hpow, Nat.div_eq_of_lt hr, Nat.add_zero, Nat.mod_eq_of_lt hdb]
      · rw [← dec2base_mod_pow, Nat.mul_comm d (b ^ w.length), Nat.mul_add_mod,
          Nat.mod_eq_of_lt hr, ih (fun e he => hd e (List.mem_cons_of_mem d he))]

/-- Helper: indexing a range-map list. -/
theorem getD_map_range {α : Type} (f : Nat → α) (d : α) (k j : Nat) (hj : j < k) :
    (((List.range k).map f).getD j d) = f j := by
  rw [List.getD_eq_getElem?_getD, List.getElem?_map, List.getElem?_range hj]
  rfl

/-- A word containing a nonzero digit has a positive decimal value. -/
theorem base2dec_pos (w : List Nat) (b a : Nat) (hb : 1 ≤ b)
    (ha : a ∈ w) (ha1 : 1 ≤ a) : 1 ≤ base2dec w b := by
  induction w with
  | nil => cases ha
  | cons d w ih =>
      rw [base2dec_cons]
      rcases List.mem_cons.mp ha with h | h
      · subst h
        have hpow : 0 < b ^ w.length := Nat.pos_pow_of_pos _ hb
        have : 1 ≤ a * b ^ w.length := Nat.one_le_iff_ne_zero.mpr (by positivity)
        omega
      · have := ih h
        omega

/-! ## Parameter bookkeeping (`AmariSolve.__init__` / `_calculate_orders`) -/

/-- `self.dim = m**n - 1` (`AmariSolve.__init__`). -/
def dim (n m : Nat) : Nat := m ^ n - 1

/-- `self.l = (m-1)/2` (`AmariSolve.__init__`), as an integer for the
signed-alphabet conversions. -/
def lval (m : Nat) : Int := ((m : Int) - 1) / 2

/-- `order_length[i] = comb(n, i+1, exact=1) * (m-1)**(i+1)`
(`_calculate_orders`). -/
def order_length (n m i : Nat) : Nat := Nat.choose n (i + 1) * (m - 1) ^ (i + 1)

/-- The running `row_counter` of `_calculate_orders`: after `j` loop
iterations it equals the sum of the first `j` order lengths, and this is the
value stored in `order_idx[j]` for `j ≤ n`. -/
def order_cum (n m j : Nat) : Nat := ∑ i ∈ Finset.range j, order_length n m i

/-- The `order_idx` array of `_calculate_orders`: entries `0..n` are the
running cumulative sums, and entry `n+1` is explicitly set to `dim+1`. -/
def order_idx_list (n m : Nat) : List Nat :=
  (List.range (n + 1)).map (order_cum n m) ++ [dim n m + 1]

theorem order_idx_length (n m : Nat) : (order_idx_list n m).length = n + 2 := by
  simp [order_idx_list]

theorem order_idx_getD (n m j : Nat) (hj : j ≤ n) :
    (order_idx_list n m).getD j 0 = order_cum n m j := by
  rw [order_idx_list, List.getD_append]
  · exact getD_map_range _ _ _ _ (by omega)
  · simp; omega

theorem order_idx_last (n m : Nat) :
    (order_idx_list n m).getD (n + 1) 0 = dim n m + 1 := by
  rw [order_idx_list, List.getD_eq_getElem?_getD, List.getElem?_append_right (by simp)]
  simp

/-- Binomial-theorem computation: the orders `1..n` exhaust the `m^n - 1`
non-baseline states. -/
theorem order_cum_n (n m : Nat) (hm : 1 ≤ m) : order_cum n m n = dim n m := by
  have hb := add_pow (m - 1) 1 n
  have hm1 : m - 1 + 1 = m := by omega
  rw [hm1] at hb
  have hsum : ∑ k ∈ Finset.range (n + 1), (m - 1) ^ k * Nat.choose n k = m ^ n := by
    rw [hb]
    apply Finset.sum_congr rfl
    intro k _
    rw [one_pow, Nat.mul_one, Nat.cast_id]
  rw [Finset.sum_range_succ'] at hsum
  simp only [pow_zero, Nat.choose_zero_right, Nat.one_mul, Nat.mul_one] at hsum
  unfold order_cum order_length dim
  have : ∑ i ∈ Finset.range n, Nat.choose n (i + 1) * (m - 1) ^ (i + 1) =
      ∑ i ∈ Finset.range n, (m - 1) ^ (i + 1) * Nat.choose n (i + 1) := by
    apply Finset.sum_congr rfl
    intro i _
    ring
  omega

/-- `order_cum` is monotone in the truncation order. -/
theorem order_cum_mono (n m : Nat) {j j' : Nat} (h : j ≤ j') :
    order_cum n m j ≤ order_cum n m j' :=
  Finset.sum_le_sum_of_subset (Finset.range_subset.mpr h)

/-- The sum of the whole `order_length` array (entries `0..n`) is `dim`:
the last entry `comb(n, n+1)*(m-1)^(n+1)` vanishes. -/
theorem sum_order_length (n m : Nat) (hm : 1 ≤ m) :
    ∑ i ∈ Finset.range (n + 1), order_length n m i = dim n m := by
  rw [Finset.sum_range_succ]
  have hlast : order_length n m n = 0 := by
    unfold order_length
    rw [Nat.choose_eq_zero_of_lt (by omega)]
    ring
  rw [hlast, Nat.add_zero]
  exact order_cum_n n m hm

/-! ## Row enumeration (`_generate_matrix` / `_recloop`) -/

/-- `pos_start` of `_recloop`: `0` when `pos` is empty, else `pos[-1] + 1`. -/
def posStart (pos : List Nat) : Nat :=
  match pos.getLast? with
  | none => 0
  | some p => p + 1

/-- The `(alpha, pos)` pairs emitted by `_recloop(order, depth, alpha, pos)`,
indexed by the number `rem = order - depth + 1` of symbol/position choices
still to be made.  At each level `ai` ranges over `1..m-1` and `pi` over
`pos_start .. n-(order-depth)-1`; once all choices are made the pair is
emitted as one matrix row (the emission at `depth == order` in the source). -/
def recloopAux (n m : Nat) : Nat → List Nat → List Nat → List (List Nat × List Nat)
  | 0, alpha, pos => [(alpha, pos)]
  | rem + 1, alpha, pos =>
      ((List.range (m - 1)).map (· + 1)).flatMap (fun ai =>
        (List.range' (posStart pos) (n - rem - posStart pos)).flatMap (fun pi =>
          recloopAux n m rem (alpha ++ [ai]) (pos ++ [pi])))

/-- All rows emitted by `_generate_matrix`: orders `1..k` in sequence, each
entered through `_recloop(ordi+1, 1, [], [], n, m)`. -/
def rowsList (n m k : Nat) : List (List Nat × List Nat) :=
  (List.range k).flatMap (fun ordi => recloopAux n m (ordi + 1) [] [])

theorem posStart_concat (pos : List Nat) (pi : Nat) :
    posStart (pos ++ [pi]) = pi + 1 := by
  simp [posStart, List.getLast?_concat]

/-- Helper: sums over `List.range` agree with `Finset.range` sums. -/
theorem sum_map_range {M : Type} [AddCommMonoid M] (f : Nat → M) (c : Nat) :
    ((List.range c).map f).sum = ∑ i ∈ Finset.range c, f i := by
  induction c with
  | zero => rfl
  | succ c ih => rw [List.range_succ, List.map_append, List.sum_append,
      Finset.sum_range_succ, ih, List.map_singleton, List.sum_singleton]

/-- Hockey-stick style count of admissible next positions. -/
theorem sum_choose_slide (n s rem : Nat) :
    ∑ i ∈ Finset.range (n - rem - s), Nat.choose (n - (s + i) - 1) rem =
      Nat.choose (n - s) (rem + 1) := by
  rcases Nat.lt_or_ge (n - rem - s) 1 with hc | hc
  · have hc0 : n - rem - s = 0 := by omega
    have hlt : n - s < rem + 1 := by omega
    rw [hc0, Finset.sum_range_zero, Nat.choose_eq_zero_of_lt hlt]
  · set c := n - rem - s with hcdef
    have hsc : s + rem + c = n := by omega
    rw [← Finset.sum_range_reflect]
    have hcongr : ∀ i ∈ Finset.range c,
        Nat.choose (n - (s + (c - 1 - i)) - 1) rem = Nat.choose (i + rem) rem := by
      intro i hi
      rw [Finset.mem_range] at hi
      congr 1
      omega
    rw [Finset.sum_congr rfl hcongr]
    have hc1 : c = (c - 1) + 1 := by omega
    rw [hc1, Nat.sum_range_add_choose (c - 1) rem]
    congr 1
    omega

/-- The number of rows emitted by one `_recloop` call:
`(m-1)^rem` symbol assignments times `C(n - pos_start, rem)` position sets. -/
theorem recloopAux_length (n m : Nat) (rem : Nat) :
    ∀ alpha pos, (recloopAux n m rem alpha pos).length =
      (m - 1) ^ rem * Nat.choose (n - posStart pos) rem := by
  induction rem with
  | zero => intro alpha pos; simp [recloopAux]
  | succ rem ih =>
      intro alpha pos
      have hinner : ∀ ai : Nat,
          ((List.range' (posStart pos) (n - rem - posStart pos)).flatMap (fun pi =>
            recloopAux n m rem (alpha ++ [ai]) (pos ++ [pi]))).length =
          (m - 1) ^ rem * Nat.choose (n - posStart pos) (rem + 1) := by
        intro ai
        rw [List.length_flatMap, List.range'_eq_map_range, List.map_map]
        trans ((List.range (n - rem - posStart pos)).map (fun i =>
                (m - 1) ^ rem * Nat.choose (n - (posStart pos + i) - 1) rem)).sum
        · refine congrArg List.sum (List.map_congr_left ?_)
          intro i _
          simp only [Function.comp_apply]
          rw [ih, posStart_concat]
          have hidx : n - (posStart pos + i + 1) = n - (posStart pos + i) - 1 := by omega
          rw [hidx]
        · rw [sum_map_range, ← Finset.mul_sum, sum_choose_slide]
      rw [recloopAux, List.length_flatMap, List.map_map]
      trans ((List.range (m - 1)).map (fun _ =>
              (m - 1) ^ rem * Nat.choose (n - posStart pos) (rem + 1))).sum
      · refine congrArg List.sum (List.map_congr_left ?_)
        intro ai _
        simp only [Function.comp_apply]
        exact hinner (ai + 1)
      · rw [sum_map_range, Finset.sum_const, Finset.card_range, smul_eq_mul]
        ring

/-- The total number of rows built for order `k` is `order_idx[k]`. -/
theorem rowsList_length (n m k : Nat) :
    (rowsList n m k).length = order_cum n m k := by
  rw [rowsList, List.length_flatMap]
  trans ((List.range k).map (fun ordi => order_length n m ordi)).sum
  · refine congrArg List.sum (List.map_congr_left ?_)
    intro ordi _
    simp only [Function.comp_apply]
    rw [recloopAux_length]
    simp [posStart, order_length, Nat.mul_comm]
  · rw [sum_map_range]
    rfl

/-- Structural invariant of an emitted row `(alpha, pos)`: equally many
symbols (each in `1..m-1`) and positions (strictly increasing, each `< n`). -/
def RowValid (n m : Nat) (r : List Nat × List Nat) : Prop :=
  r.1.length = r.2.length ∧ (∀ a ∈ r.1, 1 ≤ a ∧ a ≤ m - 1) ∧
    List.Chain' (· < ·) r.2 ∧ (∀ p ∈ r.2, p < n)

/-- Every row emitted by `_recloop` satisfies the structural invariant and
adds exactly `rem` symbol/position pairs to the accumulators. -/
theorem recloopAux_mem (n m : Nat) (rem : Nat) :
    ∀ alpha pos r, r ∈ recloopAux n m rem alpha pos →
      alpha.length = pos.length →
      (∀ a ∈ alpha, 1 ≤ a ∧ a ≤ m - 1) →
      List.Chain' (· < ·) pos →
      (∀ p ∈ pos, p < n) →
      RowValid n m r ∧ r.1.length = alpha.length + rem := by
  induction rem with
  | zero =>
      intro alpha pos r hr h1 h2 h3 h4
      simp only [recloopAux, List.mem_singleton] at hr
      subst hr
      exact ⟨⟨h1, h2, h3, h4⟩, by simp⟩
  | succ rem ih =>
      intro alpha pos r hr h1 h2 h3 h4
      simp only [recloopAux, List.mem_flatMap, List.mem_map, List.mem_range,
        List.mem_range'_1] at hr
      obtain ⟨ai, ⟨a0, ha0, rfl⟩, pi, hpi, hrec⟩ := hr
      have hres := ih (alpha ++ [a0 + 1]) (pos ++ [pi]) r hrec
        (by simp [h1])
        (by
          intro a ha
          rcases List.mem_append.mp ha with h | h
          · exact h2 a h
          · simp only [List.mem_singleton] at h
            omega)
        (by
          rw [List.chain'_append]
          refine ⟨h3, List.chain'_singleton _, ?_⟩
          intro x hx y hy
          simp only [List.head?_cons, Option.mem_def, Option.some.injEq] at hy
          subst hy
          have : posStart pos = x + 1 := by
            simp [posStart, Option.mem_def.mp hx]
          omega)
        (by
          intro p hp
          rcases List.mem_append.mp hp with h | h
          · exact h4 p h
          · simp only [List.mem_singleton] at h
            omega)
      refine ⟨hres.1, ?_⟩
      rw [hres.2]
      simp
      omega

/-- Gap bound for strictly increasing lists of naturals. -/
theorem chain_lt_getD_gap (l : List Nat) (h : List.Chain' (· < ·) l) :
    ∀ d i, i + d < l.length → l.getD i 0 + d ≤ l.getD (i + d) 0 := by
  have hadj : ∀ i, i + 1 < l.length → l.getD i 0 < l.getD (i + 1) 0 := by
    intro i hi
    have := List.chain'_iff_get.mp h i (by omega)
    rwa [List.get_eq_getElem, List.get_eq_getElem, ← List.getD_eq_getElem l 0 (by omega),
      ← List.getD_eq_getElem l 0 (by omega)] at this
  intro d
  induction d with
  | zero => intro i _; simp
  | succ d ihd =>
      intro i hi
      have h1 := ihd i (by omega)
      have h2 := hadj (i + d) (by omega)
      have : i + (d + 1) = (i + d) + 1 := by omega
      rw [this]
      omega

/-- In a valid row of order `o`, position `j` is at most `n - o + j`; in
particular each prefix insertion lands inside the partially built word. -/
theorem rowValid_pos_bound (n m : Nat) (r : List Nat × List Nat)
    (hv : RowValid n m r) (j : Nat) (hj : j < r.2.length) :
    r.2.getD j 0 + (r.2.length - 1 - j) < n := by
  obtain ⟨hlen, hsym, hchain, hlt⟩ := hv
  have hgap := chain_lt_getD_gap r.2 hchain (r.2.length - 1 - j) j (by omega)
  have hmem : r.2.getD (j + (r.2.length - 1 - j)) 0 ∈ r.2 := by
    rw [List.getD_eq_getElem r.2 0 (by omega)]
    exact List.getElem_mem _
  have hlast := hlt _ hmem
  omega

/-! ## Column generation (`inscol`, `terms`, leaf case of `_recloop`) -/

/-- `inscol(x, h, j)` (maxent.py), acting on one word: insert symbol `h` at
position `j` (prepend at `0`, append at the length, else split the word). -/
def inscol (x : List Nat) (h : Nat) : Nat → List Nat
  | 0 => h :: x
  | j + 1 =>
    match x with
    | [] => [h]
    | a :: xs => a :: inscol xs h j

theorem inscol_length (x : List Nat) (h j : Nat) (hj : j ≤ x.length) :
    (inscol x h j).length = x.length + 1 := by
  induction x generalizing j with
  | nil =>
      have hj0 : j = 0 := by simpa using hj
      subst hj0
      rfl
  | cons a xs ih =>
      cases j with
      | zero => rfl
      | succ j => simp only [inscol, List.length_cons]; rw [ih j (by simpa using hj)]

theorem getD_inscol_self (x : List Nat) (h j : Nat) (hj : j ≤ x.length) :
    (inscol x h j).getD j 0 = h := by
  induction x generalizing j with
  | nil =>
      have hj0 : j = 0 := by simpa using hj
      subst hj0
      rfl
  | cons a xs ih =>
      cases j with
      | zero => rfl
      | succ j => simpa [inscol] using ih j (by simpa using hj)

theorem getD_inscol_lt (x : List Nat) (h i j : Nat) (hij : i < j) (hj : j ≤ x.length) :
    (inscol x h j).getD i 0 = x.getD i 0 := by
  induction x generalizing i j with
  | nil => simp only [List.length_nil, Nat.le_zero] at hj; omega
  | cons a xs ih =>
      cases j with
      | zero => omega
      | succ j => cases i with
          | zero => rfl
          | succ i => simpa [inscol] using ih i j (by omega) (by simpa using hj)

theorem eraseIdx_inscol (x : List Nat) (h j : Nat) (hj : j ≤ x.length) :
    (inscol x h j).eraseIdx j = x := by
  induction x generalizing j with
  | nil =>
      have hj0 : j = 0 := by simpa using hj
      subst hj0
      rfl
  | cons a xs ih =>
      cases j with
      | zero => rfl
      | succ j => simpa [inscol, List.eraseIdx] using ih j (by simpa using hj)

theorem inscol_eraseIdx (w : List Nat) (j : Nat) (hj : j < w.length) :
    inscol (w.eraseIdx j) (w.getD j 0) j = w := by
  induction w generalizing j with
  | nil => simp at hj
  | cons a xs ih =>
      cases j with
      | zero => simp [inscol]
      | succ j => simpa [inscol, List.eraseIdx] using ih j (by simpa using hj)

theorem mem_inscol (x : List Nat) (h j d : Nat) (hd : d ∈ inscol x h j) :
    d = h ∨ d ∈ x := by
  induction x generalizing j with
  | nil =>
      cases j with
      | zero => simpa [inscol] using hd
      | succ j => simpa [inscol] using hd
  | cons a xs ih =>
      cases j with
      | zero =>
          rcases List.mem_cons.mp hd with h1 | h1
          · exact Or.inl h1
          · exact Or.inr h1
      | succ j =>
          rcases List.mem_cons.mp hd with h1 | h1
          · exact Or.inr (h1 ▸ List.mem_cons_self a xs)
          · rcases ih j h1 with h2 | h2
            · exact Or.inl h2
            · exact Or.inr (List.mem_cons_of_mem a h2)

theorem getD_eraseIdx_lt (w : List Nat) (i j : Nat) (hij : i < j) :
    (w.eraseIdx j).getD i 0 = w.getD i 0 := by
  induction w generalizing i j with
  | nil => simp [List.eraseIdx]
  | cons a xs ih =>
      cases j with
      | zero => omega
      | succ j => cases i with
          | zero => rfl
          | succ i => simpa [List.eraseIdx] using ih i j (by omega)

/-- The column-word builder of the non-`o=n` leaf of `_recloop`: insert the
assigned symbols at their positions, one `inscol` per `coli`. -/
def insertAlpha (t alpha pos : List Nat) : List Nat :=
  (List.zip alpha pos).foldl (fun temp ap => inscol temp ap.1 ap.2) t

/-- Proof-side inverse of `insertAlpha`: drop the entries at the strictly
increasing positions `pos`, last position first. -/
def eraseAll (w : List Nat) (pos : List Nat) : List Nat :=
  pos.foldr (fun p acc => acc.eraseIdx p) w

theorem insertAlpha_concat (t alpha' pos' : List Nat) (a p : Nat)
    (hlen : alpha'.length = pos'.length) :
    insertAlpha t (alpha' ++ [a]) (pos' ++ [p]) = inscol (insertAlpha t alpha' pos') a p := by
  unfold insertAlpha
  rw [List.zip_append hlen, List.foldl_append]
  rfl

theorem eraseAll_concat (w pos' : List Nat) (p : Nat) :
    eraseAll w (pos' ++ [p]) = eraseAll (w.eraseIdx p) pos' := by
  unfold eraseAll
  rw [List.foldr_append]
  rfl

/-- Inserting symbols at strictly increasing, step-bounded positions yields a
word of full length carrying each symbol at its assigned position; erasing
those positions recovers the free word, and no new symbols appear. -/
theorem insertAlpha_spec :
    ∀ pos alpha t : List Nat,
      alpha.length = pos.length →
      List.Chain' (· < ·) pos →
      (∀ j, j < pos.length → pos.getD j 0 ≤ t.length + j) →
      (insertAlpha t alpha pos).length = t.length + pos.length ∧
      (∀ j, j < pos.length →
        (insertAlpha t alpha pos).getD (pos.getD j 0) 0 = alpha.getD j 0) ∧
      eraseAll (insertAlpha t alpha pos) pos = t ∧
      (∀ d ∈ insertAlpha t alpha pos, d ∈ t ∨ d ∈ alpha) := by
  intro pos
  induction pos using List.reverseRecOn with
  | nil =>
      intro alpha t hlen _ _
      have halpha : alpha = [] := List.length_eq_zero.mp (by simpa using hlen)
      subst halpha
      refine ⟨by simp [insertAlpha], ?_, rfl, ?_⟩
      · intro j hj; simp at hj
      · intro d hd
        exact Or.inl (by simpa [insertAlpha] using hd)
  | append_singleton pos' p ih =>
      intro alpha t hlen hchain hb
      have halen : alpha.length = pos'.length + 1 := by simpa using hlen
      have hane : alpha ≠ [] := by
        intro h; rw [h] at halen; simp at halen
      rcases (List.eq_nil_or_concat alpha) with h | ⟨alpha', a, rfl⟩
      · exact absurd h hane
      simp only [List.concat_eq_append] at halen ⊢
      have halen' : alpha'.length = pos'.length := by
        simpa using halen
      have hchain' : List.Chain' (· < ·) pos' := hchain.left_of_append
      have hplt : ∀ x ∈ pos', x < p := by
        have hpw := List.chain'_iff_pairwise.mp hchain
        have := (List.pairwise_append.mp hpw).2.2
        intro x hx
        exact this x hx p (List.mem_singleton_self p)
      have hb' : ∀ j, j < pos'.length → pos'.getD j 0 ≤ t.length + j := by
        intro j hj
        have := hb j (by simp; omega)
        rwa [List.getD_append pos' [p] 0 j hj] at this
      have hp : p ≤ t.length + pos'.length := by
        have := hb pos'.length (by simp)
        rwa [List.getD_append_right pos' [p] 0 pos'.length le_rfl, Nat.sub_self] at this
      obtain ⟨hw1, hw2, hw3, hw4⟩ := ih alpha' t halen' hchain' hb'
      have hpw' : p ≤ (insertAlpha t alpha' pos').length := by omega
      rw [insertAlpha_concat t alpha' pos' a p halen']
      refine ⟨?_, ?_, ?_, ?_⟩
      · rw [inscol_length _ _ _ hpw', hw1]
        simp
        omega
      · intro j hj
        simp only [List.length_append, List.length_singleton] at hj
        rcases Nat.lt_or_ge j pos'.length with hjlt | hjge
        · rw [List.getD_append pos' [p] 0 j hjlt,
            List.getD_append alpha' [a] 0 j (by omega)]
          have hmem : pos'.getD j 0 ∈ pos' := by
            rw [List.getD_eq_getElem pos' 0 hjlt]
            exact List.getElem_mem _
          rw [getD_inscol_lt _ _ _ _ (hplt _ hmem) hpw']
          exact hw2 j hjlt
        · have hjeq : j = pos'.length := by omega
          subst hjeq
          rw [List.getD_append_right pos' [p] 0 pos'.length le_rfl, Nat.sub_self,
            List.getD_append_right alpha' [a] 0 pos'.length (by omega)]
          simp only [List.getD_singleton_default_eq, halen']
          rw [Nat.sub_self]
          simpa using getD_inscol_self _ a _ hpw'
      · rw [eraseAll_concat, eraseIdx_inscol _ _ _ hpw']
        exact hw3
      · intro d hd
        rcases mem_inscol _ _ _ _ hd with h | h
        · subst h
          exact Or.inr (List.mem_append_right alpha' (List.mem_singleton_self d))
        · rcases hw4 d h with h1 | h1
          · exact Or.inl h1
          · exact Or.inr (List.mem_append_left [a] h1)

/-- Conversely, a word agreeing with the assignment is reconstructed by
inserting the symbols back into its erasure at the assigned positions. -/
theorem insertAlpha_eraseAll :
    ∀ pos alpha w : List Nat,
      alpha.length = pos.length →
      List.Chain' (· < ·) pos →
      (∀ j, j < pos.length → pos.getD j 0 < w.length) →
      (∀ j, j < pos.length → w.getD (pos.getD j 0) 0 = alpha.getD j 0) →
      insertAlpha (eraseAll w pos) alpha pos = w ∧
      (eraseAll w pos).length + pos.length = w.length ∧
      (∀ d ∈ eraseAll w pos, d ∈ w) := by
  intro pos
  induction pos using List.reverseRecOn with
  | nil =>
      intro alpha w hlen _ _ _
      have halpha : alpha = [] := List.length_eq_zero.mp (by simpa using hlen)
      subst halpha
      exact ⟨rfl, by simp [eraseAll], fun d hd => hd⟩
  | append_singleton pos' p ih =>
      intro alpha w hlen hchain h3 h4
      have halen : alpha.length = pos'.length + 1 := by simpa using hlen
      have hane : alpha ≠ [] := by
        intro h; rw [h] at halen; simp at halen
      rcases (List.eq_nil_or_concat alpha) with h | ⟨alpha', a, rfl⟩
      · exact absurd h hane
      simp only [List.concat_eq_append] at halen h4 ⊢
      have halen' : alpha'.length = pos'.length := by simpa using halen
      have hchain' : List.Chain' (· < ·) pos' := hchain.left_of_append
      have hplt : ∀ x ∈ pos', x < p := by
        have hpw := List.chain'_iff_pairwise.mp hchain
        have := (List.pairwise_append.mp hpw).2.2
        intro x hx
        exact this x hx p (List.mem_singleton_self p)
      have hpw : p < w.length := by
        have := h3 pos'.length (by simp)
        rwa [List.getD_append_right pos' [p] 0 pos'.length le_rfl, Nat.sub_self] at this
      have hwa : w.getD p 0 = a := by
        have := h4 pos'.length (by simp)
        rwa [List.getD_append_right pos' [p] 0 pos'.length le_rfl, Nat.sub_self,
          List.getD_append_right alpha' [a] 0 pos'.length (by omega), halen',
          Nat.sub_self] at this
      have herlen : (w.eraseIdx p).length = w.length - 1 :=
        List.length_eraseIdx_of_lt hpw
      have h3' : ∀ j, j < pos'.length → pos'.getD j 0 < (w.eraseIdx p).length := by
        intro j hj
        have hmem : pos'.getD j 0 ∈ pos' := by
          rw [List.getD_eq_getElem pos' 0 hj]
          exact List.getElem_mem _
        have := hplt _ hmem
        omega
      have h4' : ∀ j, j < pos'.length →
          (w.eraseIdx p).getD (pos'.getD j 0) 0 = alpha'.getD j 0 := by
        intro j hj
        have hmem : pos'.getD j 0 ∈ pos' := by
          rw [List.getD_eq_getElem pos' 0 hj]
          exact List.getElem_mem _
        rw [getD_eraseIdx_lt _ _ _ (hplt _ hmem)]
        have := h4 j (by simp; omega)
        rwa [List.getD_append pos' [p] 0 j hj,
          List.getD_append alpha' [a] 0 j (by omega)] at this
      obtain ⟨hi1, hi2, hi3⟩ := ih alpha' (w.eraseIdx p) halen' hchain' h3' h4'
      rw [eraseAll_concat]
      refine ⟨?_, ?_, ?_⟩
      · rw [insertAlpha_concat _ _ _ _ _ halen', hi1, ← hwa]
        exact inscol_eraseIdx w p hpw
      · simp only [List.length_append, List.length_singleton]
        omega
      · intro d hd
        exact (List.eraseIdx_sublist w p).subset (hi3 d hd)

/-- `self.terms` for order `o`: the `m^(n-o)` free words of length `n-o`
(`dec2base(np.c_[0:nterms], m, n-(ordi+1))`). -/
def termsList (n m o : Nat) : List (List Nat) :=
  (List.range (m ^ (n - o))).map (fun x => dec2base x m (n - o))

/-- The columns set to `1` for a row `(alpha, pos)` of order `o = len(alpha)`
(leaf of `_recloop`): for `o = n` the single column `base2dec(alpha, m) - 1`,
otherwise `base2dec` of each completed word minus one. -/
def rowCols (n m : Nat) (r : List Nat × List Nat) : List Nat :=
  if r.1.length = n then [base2dec r.1 m - 1]
  else (termsList n m r.1.length).map (fun t => base2dec (insertAlpha t r.1 r.2) m - 1)

/-- Sparse matrix model: a shape together with an entry function. -/
structure Mat (R : Type) where
  rows : Nat
  cols : Nat
  entry : Nat → Nat → R

/-- The generated transformation matrix (`_generate_matrix`): a
`dok_matrix((order_idx[k], dim))` initialised to zero, with
`A[row_counter, cols] = 1` for each emitted row. -/
def Amatrix (R : Type) [Zero R] [One R] (n m k : Nat) : Mat R :=
  ⟨(order_idx_list n m).getD k 0, dim n m, fun r c =>
    match (rowsList n m k)[r]? with
    | some rs => if c ∈ rowCols n m rs then 1 else 0
    | none => 0⟩

/-- State `c` agrees with row `(alpha, pos)`: the length-`n` base-`m` word of
the non-baseline state `c+1` carries symbol `alpha[j]` at position `pos[j]`
for every `j`. -/
def agreesRow (n m : Nat) (r : List Nat × List Nat) (c : Nat) : Bool :=
  (List.range r.1.length).all (fun j =>
    (dec2base (c + 1) m n).getD (r.2.getD j 0) 0 == r.1.getD j 0)

theorem agreesRow_iff (n m : Nat) (r : List Nat × List Nat) (c : Nat) :
    agreesRow n m r c = true ↔
    ∀ j, j < r.1.length →
      (dec2base (c + 1) m n).getD (r.2.getD j 0) 0 = r.1.getD j 0 := by
  simp [agreesRow]

/-- A nonempty valid row has order at most `n`. -/
theorem rowValid_order_le (n m : Nat) (r : List Nat × List Nat)
    (hv : RowValid n m r) (ho : 1 ≤ r.1.length) : r.1.length ≤ n := by
  obtain ⟨hlen, _, hchain, hlt⟩ := hv
  have hgap := chain_lt_getD_gap r.2 hchain (r.2.length - 1) 0 (by omega)
  have hmem : r.2.getD (0 + (r.2.length - 1)) 0 ∈ r.2 := by
    rw [List.getD_eq_getElem r.2 0 (by omega)]
    exact List.getElem_mem _
  have := hlt _ hmem
  omega

/-- Position bound in the form needed by the insertions:
`pos[j] ≤ (n - o) + j`. -/
theorem rowValid_pos_le (n m : Nat) (r : List Nat × List Nat)
    (hv : RowValid n m r) (j : Nat) (hj : j < r.2.length) :
    r.2.getD j 0 ≤ (n - r.2.length) + j := by
  have h1 := rowValid_pos_bound n m r hv j hj
  have hleq := hv.1
  have ho : 1 ≤ r.1.length := by omega
  have h2 : r.1.length ≤ n := rowValid_order_le n m r hv ho
  omega

/-- In a fully constrained valid row (`o = n`), the positions are forced to
be exactly `0, 1, ..., n-1`. -/
theorem rowValid_pos_full (n m : Nat) (r : List Nat × List Nat)
    (hv : RowValid n m r) (hfull : r.1.length = n) (j : Nat) (hj : j < n) :
    r.2.getD j 0 = j := by
  have hleq := hv.1
  have hub := rowValid_pos_le n m r hv j (by omega)
  have hgap := chain_lt_getD_gap r.2 hv.2.2.1 j 0 (by omega)
  simp only [Nat.zero_add] at hgap
  omega

/-- Core characterization: for a valid row and a non-baseline state `c`, the
leaf columns of `_recloop` contain `c` exactly when the base-`m` word of
`c+1` agrees with the row's partial assignment. -/
theorem rowCols_mem_iff (n m : Nat) (hm : 1 ≤ m) (r : List Nat × List Nat)
    (hv : RowValid n m r) (ho : 1 ≤ r.1.length) (c : Nat) (hc : c < dim n m) :
    (c ∈ rowCols n m r ↔ agreesRow n m r c = true) := by
  obtain ⟨hlen, hsym, hchain, hltn⟩ := hv
  have hon : r.1.length ≤ n := rowValid_order_le n m r ⟨hlen, hsym, hchain, hltn⟩ ho
  have hmn : 0 < m ^ n := Nat.pos_pow_of_pos _ hm
  have hc1 : c + 1 < m ^ n := by
    unfold dim at hc
    omega
  have hsymlt : ∀ a ∈ r.1, a < m := by
    intro a ha
    have := hsym a ha
    omega
  have hsym1 : ∀ a ∈ r.1, 1 ≤ a := fun a ha => (hsym a ha).1
  rw [agreesRow_iff]
  by_cases hfull : r.1.length = n
  · -- fully constrained row: single column, positions forced to the identity
    rw [rowCols, if_pos hfull]
    have hpos : ∀ j, j < n → r.2.getD j 0 = j :=
      rowValid_pos_full n m r ⟨hlen, hsym, hchain, hltn⟩ hfull
    have halpha1 : 1 ≤ base2dec r.1 m := by
      have hmem : r.1.getD 0 0 ∈ r.1 := by
        rw [List.getD_eq_getElem r.1 0 (by omega)]
        exact List.getElem_mem _
      exact base2dec_pos r.1 m _ hm hmem (hsym1 _ hmem)
    constructor
    · intro hmemc
      rw [List.mem_singleton] at hmemc
      have hcb : c + 1 = base2dec r.1 m := by omega
      have hw : dec2base (c + 1) m n = r.1 := by
        rw [hcb, ← hfull, dec2base_base2dec r.1 m hm hsymlt]
      intro j hj
      rw [hw, hpos j (by omega)]
    · intro hagree
      have hweq : dec2base (c + 1) m n = r.1 := by
        apply List.ext_getElem
        · rw [dec2base_length, hfull]
        · intro i h1 h2
          rw [← List.getD_eq_getElem _ 0 h1, ← List.getD_eq_getElem _ 0 h2]
          have hi : i < r.1.length := h2
          have := hagree i hi
          rw [hpos i (by omega)] at this
          exact this
      have : base2dec (dec2base (c + 1) m n) m = base2dec r.1 m := by rw [hweq]
      rw [base2dec_dec2base _ _ _ hc1] at this
      rw [List.mem_singleton]
      omega
  · -- partially constrained row: one column per free word
    rw [rowCols, if_neg hfull]
    have holt : r.1.length < n := by omega
    constructor
    · intro hmemc
      rw [List.mem_map] at hmemc
      obtain ⟨t, htmem, htc⟩ := hmemc
      rw [termsList, List.mem_map] at htmem
      obtain ⟨x, hxmem, rfl⟩ := htmem
      rw [List.mem_range] at hxmem
      set t := dec2base x m (n - r.1.length) with htdef
      have htlen : t.length = n - r.1.length := dec2base_length _ _ _
      have htd : ∀ d ∈ t, d < m := dec2base_mem_lt x m _ hm
      have hb : ∀ j, j < r.2.length → r.2.getD j 0 ≤ t.length + j := by
        intro j hj
        have := rowValid_pos_le n m r ⟨hlen, hsym, hchain, hltn⟩ j hj
        omega
      obtain ⟨hw1, hw2, _, hw4⟩ :=
        insertAlpha_spec r.2 r.1 t hlen hchain hb
      set w := insertAlpha t r.1 r.2 with hwdef
      have hwlen : w.length = n := by omega
      have hwd : ∀ d ∈ w, d < m := by
        intro d hd
        rcases hw4 d hd with h | h
        · exact htd d h
        · exact hsymlt d h
      have hw0 : 1 ≤ base2dec w m := by
        have hjlt : r.2.getD 0 0 < w.length := by
          rw [hwlen]
          exact hltn _ (by
            rw [List.getD_eq_getElem r.2 0 (by omega)]
            exact List.getElem_mem _)
        have hmemw : w.getD (r.2.getD 0 0) 0 ∈ w := by
          rw [List.getD_eq_getElem w 0 hjlt]
          exact List.getElem_mem _
        have hval : w.getD (r.2.getD 0 0) 0 = r.1.getD 0 0 := hw2 0 (by omega)
        have h1mem : r.1.getD 0 0 ∈ r.1 := by
          rw [List.getD_eq_getElem r.1 0 (by omega)]
          exact List.getElem_mem _
        have := hsym1 _ h1mem
        exact base2dec_pos w m _ hm hmemw (by omega)
      have hwlt : base2dec w m < m ^ n := by
        have := base2dec_lt w m hwd
        rwa [hwlen] at this
      have hcb : c + 1 = base2dec w m := by omega
      have hwrec : dec2base (c + 1) m n = w := by
        rw [hcb, ← hwlen, dec2base_base2dec w m hm hwd]
      intro j hj
      rw [hwrec]
      exact hw2 j (by omega)
    · intro hagree
      set w := dec2base (c + 1) m n with hwdef
      have hwlen : w.length = n := dec2base_length _ _ _
      have hwd : ∀ d ∈ w, d < m := dec2base_mem_lt _ m _ hm
      have hwval : base2dec w m = c + 1 := base2dec_dec2base _ _ _ hc1
      have h3 : ∀ j, j < r.2.length → r.2.getD j 0 < w.length := by
        intro j hj
        rw [hwlen]
        exact hltn _ (by
          rw [List.getD_eq_getElem r.2 0 hj]
          exact List.getElem_mem _)
      have h4 : ∀ j, j < r.2.length → w.getD (r.2.getD j 0) 0 = r.1.getD j 0 := by
        intro j hj
        exact hagree j (by omega)
      obtain ⟨he1, he2, he3⟩ := insertAlpha_eraseAll r.2 r.1 w hlen hchain h3 h4
      set t := eraseAll w r.2 with htdef
      have htlen : t.length = n - r.1.length := by omega
      have htd : ∀ d ∈ t, d < m := fun d hd => hwd d (he3 d hd)
      rw [List.mem_map]
      refine ⟨t, ?_, ?_⟩
      · rw [termsList, List.mem_map]
        refine ⟨base2dec t m, ?_, ?_⟩
        · rw [List.mem_range, ← htlen]
          exact base2dec_lt t m htd
        · have := dec2base_base2dec t m hm htd
          rwa [htlen] at this
      · rw [he1, hwval]
        omega

/-- Every row of the built matrix is valid and has order at least 1. -/
theorem rowsList_mem_valid (n m k : Nat) (r : List Nat × List Nat)
    (hr : r ∈ rowsList n m k) : RowValid n m r ∧ 1 ≤ r.1.length := by
  rw [rowsList, List.mem_flatMap] at hr
  obtain ⟨ordi, _, hmem⟩ := hr
  have h := recloopAux_mem n m (ordi + 1) [] [] r hmem rfl
    (by intro a ha; cases ha) (by simp) (by intro p hp; cases hp)
  refine ⟨h.1, ?_⟩
  have := h.2
  omega

/-! ## Claim C4: constraint-matrix entries -/

/-- C4: for every valid `(n, m, k)` and every row `r` and column `c` of the
built constraint matrix, `A[r, c] = 1` if and only if the non-baseline joint
state addressed by column `c` (full-word decimal index `c+1`, baseline word
`0` excluded), written as a length-`n` base-`m` word, agrees with row `r`'s
fixed nonzero-symbol assignment on row `r`'s variable subset; all other
entries are `0`. -/
theorem C4_matrix_entry (n m k : Nat) (hn : 1 ≤ n) (hm : 2 ≤ m)
    (hk1 : 1 ≤ k) (hkn : k ≤ n) (r c : Nat)
    (hr : r < (Amatrix ℚ n m k).rows) (hc : c < (Amatrix ℚ n m k).cols) :
    (Amatrix ℚ n m k).entry r c =
      if agreesRow n m ((rowsList n m k).getD r ([], [])) c then 1 else 0 := by
  have hrows : (Amatrix ℚ n m k).rows = order_cum n m k := by
    show (order_idx_list n m).getD k 0 = _
    exact order_idx_getD n m k hkn
  have hrl : r < (rowsList n m k).length := by
    rw [rowsList_length]
    rw [hrows] at hr
    exact hr
  have hcd : c < dim n m := hc
  set rs := (rowsList n m k).getD r ([], []) with hrs
  have hmem : rs ∈ rowsList n m k := by
    rw [hrs, List.getD_eq_getElem _ _ hrl]
    exact List.getElem_mem _
  obtain ⟨hvalid, ho⟩ := rowsList_mem_valid n m k rs hmem
  have hsome : (rowsList n m k)[r]? = some rs := by
    rw [List.getElem?_eq_getElem hrl, hrs, List.getD_eq_getElem _ _ hrl]
  show (match (rowsList n m k)[r]? with
    | some rs => if c ∈ rowCols n m rs then (1 : ℚ) else 0
    | none => 0) = _
  rw [hsome]
  show (if c ∈ rowCols n m rs then (1 : ℚ) else 0) = _
  have hiff := rowCols_mem_iff n m (by omega) rs hvalid ho c hcd
  by_cases hagree : agreesRow n m rs c = true
  · rw [if_pos (hiff.mpr hagree), if_pos hagree]
  · rw [if_neg (fun hmemc => hagree (hiff.mp hmemc)), if_neg hagree]

/-- Witness for C4 at `n = 2`, `m = 2`, `k = 1`, entry `(0, 1)`. -/
theorem C4_matrix_entry_witness :
    (1 ≤ 2 ∧ 2 ≤ 2 ∧ 1 ≤ 1 ∧ 1 ≤ 2 ∧
      0 < (Amatrix ℚ 2 2 1).rows ∧ 1 < (Amatrix ℚ 2 2 1).cols) ∧
    (Amatrix ℚ 2 2 1).entry 0 1 =
      if agreesRow 2 2 ((rowsList 2 2 1).getD 0 ([], [])) 1 then 1 else 0 :=
  ⟨⟨le_refl 1 |>.trans (by norm_num), le_refl 2, le_refl 1, by norm_num,
      by decide, by decide⟩,
    C4_matrix_entry 2 2 1 (by norm_num) (by norm_num) (by norm_num) (by norm_num)
      0 1 (by decide) (by decide)⟩

/-! ## Claim C6: order bookkeeping invariants -/

/-- C6: for every `n > 0` and `m > 1`:
`order_length[i] = C(n, i+1) * (m-1)^(i+1)`; `order_idx` is a non-decreasing
sequence of length `n+2` with `order_idx[0] = 0`, `order_idx[j]` the
cumulative sum of the first `j` order lengths (for the loop-assigned entries
`j ≤ n`), and `order_idx[n+1] = dim + 1`; `sum(order_length) = dim = m^n - 1`;
and for every `k` in `[1, n]` the built matrix has exactly `order_idx[k]`
rows and `dim` columns. -/
theorem C6_order_bookkeeping (n m : Nat) (hn : 1 ≤ n) (hm : 2 ≤ m) :
    (∀ i, order_length n m i = Nat.choose n (i + 1) * (m - 1) ^ (i + 1)) ∧
    (order_idx_list n m).length = n + 2 ∧
    (order_idx_list n m).getD 0 0 = 0 ∧
    (∀ j, j ≤ n →
      (order_idx_list n m).getD j 0 = ∑ i ∈ Finset.range j, order_length n m i) ∧
    (order_idx_list n m).getD (n + 1) 0 = dim n m + 1 ∧
    List.Chain' (· ≤ ·) (order_idx_list n m) ∧
    (∑ i ∈ Finset.range (n + 1), order_length n m i) = dim n m ∧
    dim n m = m ^ n - 1 ∧
    (∀ k, 1 ≤ k → k ≤ n →
      (rowsList n m k).length = (order_idx_list n m).getD k 0 ∧
      (Amatrix ℚ n m k).rows = (order_idx_list n m).getD k 0 ∧
      (Amatrix ℚ n m k).cols = dim n m) := by
  have hm1 : 1 ≤ m := by omega
  refine ⟨fun i => rfl, order_idx_length n m, ?_, ?_, order_idx_last n m, ?_, sum_order_length n m hm1, rfl, ?_⟩
  · rw [order_idx_getD n m 0 (by omega)]
    rfl
  · intro j hj
    exact order_idx_getD n m j hj
  · rw [List.chain'_iff_get]
    intro i hilen
    have hlen2 : (order_idx_list n m).length = n + 2 := order_idx_length n m
    have hb1 : i < (order_idx_list n m).length := by omega
    have hb2 : i + 1 < (order_idx_list n m).length := by omega
    have hgoal : (order_idx_list n m).getD i 0 ≤ (order_idx_list n m).getD (i + 1) 0 := by
      rcases Nat.lt_or_ge i n with hi | hi
      · rw [order_idx_getD n m i (by omega), order_idx_getD n m (i + 1) (by omega)]
        exact order_cum_mono n m (by omega)
      · have hieq : i = n := by omega
        rw [hieq, order_idx_getD n m n le_rfl, order_idx_last, order_cum_n n m hm1]
        omega
    calc (order_idx_list n m).get ⟨i, _⟩
        = (order_idx_list n m).getD i 0 := (List.getD_eq_getElem _ 0 hb1).symm
      _ ≤ (order_idx_list n m).getD (i + 1) 0 := hgoal
      _ = (order_idx_list n m).get ⟨i + 1, _⟩ := List.getD_eq_getElem _ 0 hb2
  · intro k hk1 hkn
    refine ⟨?_, ?_, rfl⟩
    · rw [rowsList_length, order_idx_getD n m k hkn]
    · show (order_idx_list n m).getD k 0 = _
      rfl

/-- Witness for C6 at `n = 2`, `m = 2`. -/
theorem C6_order_bookkeeping_witness :
    (1 ≤ 2 ∧ 2 ≤ 2) ∧
    ((∀ i, order_length 2 2 i = Nat.choose 2 (i + 1) * (2 - 1) ^ (i + 1)) ∧
    (order_idx_list 2 2).length = 2 + 2 ∧
    (order_idx_list 2 2).getD 0 0 = 0 ∧
    (∀ j, j ≤ 2 →
      (order_idx_list 2 2).getD j 0 = ∑ i ∈ Finset.range j, order_length 2 2 i) ∧
    (order_idx_list 2 2).getD (2 + 1) 0 = dim 2 2 + 1 ∧
    List.Chain' (· ≤ ·) (order_idx_list 2 2) ∧
    (∑ i ∈ Finset.range (2 + 1), order_length 2 2 i) = dim 2 2 ∧
    dim 2 2 = 2 ^ 2 - 1 ∧
    (∀ k, 1 ≤ k → k ≤ 2 →
      (rowsList 2 2 k).length = (order_idx_list 2 2).getD k 0 ∧
      (Amatrix ℚ 2 2 k).rows = (order_idx_list 2 2).getD k 0 ∧
      (Amatrix ℚ 2 2 k).cols = dim 2 2)) :=
  ⟨⟨by norm_num, le_rfl⟩, C6_order_bookkeeping 2 2 (by norm_num) le_rfl⟩

/-! ## Signed/unsigned conversions (`si2un` / `un2si`) -/

/-- numpy `x.max()`: the largest element; on an empty array the reduction
itself raises a `ValueError`. -/
def npMax (x : List Int) : Except String Int :=
  match x with
  | [] => Except.error "ValueError: zero-size array to reduction operation"
  | a :: xs => Except.ok (xs.foldl max a)

/-- numpy `x.min()`: the smallest element; raises on an empty array. -/
def npMin (x : List Int) : Except String Int :=
  match x with
  | [] => Except.error "ValueError: zero-size array to reduction operation"
  | a :: xs => Except.ok (xs.foldl min a)

/-- `si2un(x)` (`AmariSolve.si2un`): raise if `x.max() > l` or
`x.min() < -l` (numpy's reductions themselves raising on an empty array),
else add `m` to every negative value. -/
def si2un (m : Nat) (x : List Int) : Except String (List Int) :=
  (npMax x).bind (fun mx =>
    (npMin x).bind (fun mn =>
      if lval m < mx ∨ mn < -(lval m) then
        Except.error "Badly formed input data"
      else
        Except.ok (x.map (fun v => if v < 0 then v + (m : Int) else v))))

/-- `un2si(x)` (`AmariSolve.un2si`): raise if `x.max() > m-1` or
`x.min() < 0`, else subtract `m` from every value above `l`. -/
def un2si (m : Nat) (x : List Int) : Except String (List Int) :=
  (npMax x).bind (fun mx =>
    (npMin x).bind (fun mn =>
      if (m : Int) - 1 < mx ∨ mn < 0 then
        Except.error "Badly formed input data"
      else
        Except.ok (x.map (fun v => if lval m < v then v - (m : Int) else v))))

theorem ok_bind {α β : Type} (a : α) (f : α → Except String β) :
    (Except.ok a : Except String α).bind f = f a := rfl

/-- The left fold of `max` is an element (or the seed) and an upper bound. -/
theorem foldl_max_spec (xs : List Int) : ∀ a : Int,
    (xs.foldl max a = a ∨ xs.foldl max a ∈ xs) ∧ a ≤ xs.foldl max a ∧
      ∀ v ∈ xs, v ≤ xs.foldl max a := by
  induction xs with
  | nil =>
      intro a
      exact ⟨Or.inl rfl, le_refl a, fun v hv => absurd hv (List.not_mem_nil v)⟩
  | cons b xs ih =>
      intro a
      simp only [List.foldl_cons]
      obtain ⟨h1, h2, h3⟩ := ih (max a b)
      refine ⟨?_, le_trans (le_max_left a b) h2, ?_⟩
      · rcases h1 with h | h
        · rcases max_choice a b with hm | hm
          · exact Or.inl (by rw [h, hm])
          · exact Or.inr (by rw [h, hm]; exact List.mem_cons_self b xs)
        · exact Or.inr (List.mem_cons_of_mem b h)
      · intro v hv
        rcases List.mem_cons.mp hv with rfl | hv'
        · exact le_trans (le_max_right a v) h2
        · exact h3 v hv'

/-- The left fold of `min` is an element (or the seed) and a lower bound. -/
theorem foldl_min_spec (xs : List Int) : ∀ a : Int,
    (xs.foldl min a = a ∨ xs.foldl min a ∈ xs) ∧ xs.foldl min a ≤ a ∧
      ∀ v ∈ xs, xs.foldl min a ≤ v := by
  induction xs with
  | nil =>
      intro a
      exact ⟨Or.inl rfl, le_refl a, fun v hv => absurd hv (List.not_mem_nil v)⟩
  | cons b xs ih =>
      intro a
      simp only [List.foldl_cons]
      obtain ⟨h1, h2, h3⟩ := ih (min a b)
      refine ⟨?_, le_trans h2 (min_le_left a b), ?_⟩
      · rcases h1 with h | h
        · rcases min_choice a b with hm | hm
          · exact Or.inl (by rw [h, hm])
          · exact Or.inr (by rw [h, hm]; exact List.mem_cons_self b xs)
        · exact Or.inr (List.mem_cons_of_mem b h)
      · intro v hv
        rcases List.mem_cons.mp hv with rfl | hv'
        · exact le_trans h2 (min_le_right a v)
        · exact h3 v hv'

/-- On a non-empty array, `x.max()` succeeds with an element bounding the
array from above. -/
theorem npMax_spec (x : List Int) (hx : x ≠ []) :
    ∃ mx, npMax x = Except.ok mx ∧ mx ∈ x ∧ ∀ v ∈ x, v ≤ mx := by
  match x with
  | [] => exact absurd rfl hx
  | a :: xs =>
      obtain ⟨h1, h2, h3⟩ := foldl_max_spec xs a
      refine ⟨xs.foldl max a, rfl, ?_, ?_⟩
      · rcases h1 with h | h
        · rw [h]; exact List.mem_cons_self a xs
        · exact List.mem_cons_of_mem a h
      · intro v hv
        rcases List.mem_cons.mp hv with rfl | hv'
        · exact h2
        · exact h3 v hv'

/-- On a non-empty array, `x.min()` succeeds with an element bounding the
array from below. -/
theorem npMin_spec (x : List Int) (hx : x ≠ []) :
    ∃ mn, npMin x = Except.ok mn ∧ mn ∈ x ∧ ∀ v ∈ x, mn ≤ v := by
  match x with
  | [] => exact absurd rfl hx
  | a :: xs =>
      obtain ⟨h1, h2, h3⟩ := foldl_min_spec xs a
      refine ⟨xs.foldl min a, rfl, ?_, ?_⟩
      · rcases h1 with h | h
        · rw [h]; exact List.mem_cons_self a xs
        · exact List.mem_cons_of_mem a h
      · intro v hv
        rcases List.mem_cons.mp hv with rfl | hv'
        · exact h2
        · exact h3 v hv'

/-- C8 counterexample: with the even alphabet size `m = 4` (`l = 1`) the
in-range unsigned value `2` converts to `-2`, which is outside the signed
range, so the unsigned-to-signed-to-unsigned round trip raises instead of
restoring the input. -/
theorem C8_sign_counterexample :
    un2si 4 [2] = Except.ok [-2] ∧
    si2un 4 [-2] = Except.error "Badly formed input data" :=
  ⟨rfl, rfl⟩

/-- C8 (amended): for every `m ≥ 2` and non-empty array, the
signed-to-unsigned-to-signed round trip restores any array within the
signed range `[-l, l]`; the unsigned-to-signed-to-unsigned round trip
restores arrays within `[0, m-1]` when `m` is odd (for even `m` it can
raise, see the counterexample); each conversion raises the bad-input error
when some value is outside its expected input range; and on an empty array
both conversions raise the `ValueError` coming from numpy's `max`/`min`
reductions. -/
theorem C8_sign_roundtrip (m : Nat) (hm : 2 ≤ m) (x : List Int) :
    (x ≠ [] → (∀ v ∈ x, -(lval m) ≤ v ∧ v ≤ lval m) →
       ∃ y, si2un m x = Except.ok y ∧ un2si m y = Except.ok x) ∧
    (x ≠ [] → m % 2 = 1 → (∀ v ∈ x, 0 ≤ v ∧ v ≤ (m : Int) - 1) →
       ∃ y, un2si m x = Except.ok y ∧ si2un m y = Except.ok x) ∧
    ((∃ v ∈ x, lval m < v ∨ v < -(lval m)) →
       si2un m x = Except.error "Badly formed input data") ∧
    ((∃ v ∈ x, (m : Int) - 1 < v ∨ v < 0) →
       un2si m x = Except.error "Badly formed input data") ∧
    (x = [] →
       si2un m x = Except.error "ValueError: zero-size array to reduction operation" ∧
       un2si m x = Except.error "ValueError: zero-size array to reduction operation") := by
  have hl0 : 0 ≤ lval m := by unfold lval; omega
  have hl1 : 2 * lval m ≤ (m : Int) - 1 := by unfold lval; omega
  refine ⟨?_, ?_, ?_, ?_, ?_⟩
  · intro hx0 hx
    obtain ⟨mx, hmx1, hmx2, hmx3⟩ := npMax_spec x hx0
    obtain ⟨mn, hmn1, hmn2, hmn3⟩ := npMin_spec x hx0
    have hcond : ¬ (lval m < mx ∨ mn < -(lval m)) := by
      push_neg
      exact ⟨(hx mx hmx2).2, (hx mn hmn2).1⟩
    refine ⟨x.map (fun v => if v < 0 then v + (m : Int) else v), ?_, ?_⟩
    · unfold si2un
      rw [hmx1, hmn1]
      simp only [ok_bind]
      rw [if_neg hcond]
    · have hy0 : x.map (fun v => if v < 0 then v + (m : Int) else v) ≠ [] := by
        simpa using hx0
      have hrange : ∀ w ∈ x.map (fun v => if v < 0 then v + (m : Int) else v),
          0 ≤ w ∧ w ≤ (m : Int) - 1 := by
        intro w hw
        rw [List.mem_map] at hw
        obtain ⟨v, hv, rfl⟩ := hw
        obtain ⟨h1, h2⟩ := hx v hv
        by_cases hv0 : v < 0
        · rw [if_pos hv0]
          constructor <;> omega
        · rw [if_neg hv0]
          constructor <;> omega
      obtain ⟨my, hmy1, hmy2, hmy3⟩ := npMax_spec _ hy0
      obtain ⟨my', hmy1', hmy2', hmy3'⟩ := npMin_spec _ hy0
      have hcond2 : ¬ ((m : Int) - 1 < my ∨ my' < 0) := by
        push_neg
        exact ⟨(hrange my hmy2).2, (hrange my' hmy2').1⟩
      unfold un2si
      rw [hmy1, hmy1']
      simp only [ok_bind]
      rw [if_neg hcond2]
      refine congrArg Except.ok ?_
      rw [List.map_map]
      have hid : ∀ v ∈ x,
          ((fun w => if lval m < w then w - (m : Int) else w) ∘
            (fun v => if v < 0 then v + (m : Int) else v)) v = v := by
        intro v hv
        obtain ⟨h1, h2⟩ := hx v hv
        simp only [Function.comp_apply]
        by_cases hv0 : v < 0
        · rw [if_pos hv0, if_pos (by omega)]
          ring
        · rw [if_neg hv0, if_neg (by omega)]
      rw [List.map_congr_left hid]
      exact List.map_id' x
  · intro hx0 hodd hx
    have hl2 : 2 * lval m = (m : Int) - 1 := by unfold lval; omega
    obtain ⟨mx, hmx1, hmx2, hmx3⟩ := npMax_spec x hx0
    obtain ⟨mn, hmn1, hmn2, hmn3⟩ := npMin_spec x hx0
    have hcond : ¬ ((m : Int) - 1 < mx ∨ mn < 0) := by
      push_neg
      exact ⟨(hx mx hmx2).2, (hx mn hmn2).1⟩
    refine ⟨x.map (fun v => if lval m < v then v - (m : Int) else v), ?_, ?_⟩
    · unfold un2si
      rw [hmx1, hmn1]
      simp only [ok_bind]
      rw [if_neg hcond]
    · have hy0 : x.map (fun v => if lval m < v then v - (m : Int) else v) ≠ [] := by
        simpa using hx0
      have hrange : ∀ w ∈ x.map (fun v => if lval m < v then v - (m : Int) else v),
          -(lval m) ≤ w ∧ w ≤ lval m := by
        intro w hw
        rw [List.mem_map] at hw
        obtain ⟨v, hv, rfl⟩ := hw
        obtain ⟨h1, h2⟩ := hx v hv
        by_cases hv0 : lval m < v
        · rw [if_pos hv0]
          constructor <;> omega
        · rw [if_neg hv0]
          constructor <;> omega
      obtain ⟨my, hmy1, hmy2, hmy3⟩ := npMax_spec _ hy0
      obtain ⟨my', hmy1', hmy2', hmy3'⟩ := npMin_spec _ hy0
      have hcond2 : ¬ (lval m < my ∨ my' < -(lval m)) := by
        push_neg
        exact ⟨(hrange my hmy2).2, (hrange my' hmy2').1⟩
      unfold si2un
      rw [hmy1, hmy1']
      simp only [ok_bind]
      rw [if_neg hcond2]
      refine congrArg Except.ok ?_
      rw [List.map_map]
      have hid : ∀ v ∈ x,
          ((fun w => if w < 0 then w + (m : Int) else w) ∘
            (fun v => if lval m < v then v - (m : Int) else v)) v = v := by
        intro v hv
        obtain ⟨h1, h2⟩ := hx v hv
        simp only [Function.comp_apply]
        by_cases hv0 : lval m < v
        · rw [if_pos hv0, if_pos (by omega)]
          ring
        · rw [if_neg hv0, if_neg (by omega)]
      rw [List.map_congr_left hid]
      exact List.map_id' x
  · rintro ⟨v, hv, hvout⟩
    have hx0 : x ≠ [] := by
      intro h
      rw [h] at hv
      cases hv
    obtain ⟨mx, hmx1, hmx2, hmx3⟩ := npMax_spec x hx0
    obtain ⟨mn, hmn1, hmn2, hmn3⟩ := npMin_spec x hx0
    have hcond : lval m < mx ∨ mn < -(lval m) := by
      rcases hvout with h | h
      · exact Or.inl (lt_of_lt_of_le h (hmx3 v hv))
      · exact Or.inr (lt_of_le_of_lt (hmn3 v hv) h)
    unfold si2un
    rw [hmx1, hmn1]
    simp only [ok_bind]
    rw [if_pos hcond]
  · rintro ⟨v, hv, hvout⟩
    have hx0 : x ≠ [] := by
      intro h
      rw [h] at hv
      cases hv
    obtain ⟨mx, hmx1, hmx2, hmx3⟩ := npMax_spec x hx0
    obtain ⟨mn, hmn1, hmn2, hmn3⟩ := npMin_spec x hx0
    have hcond : (m : Int) - 1 < mx ∨ mn < 0 := by
      rcases hvout with h | h
      · exact Or.inl (lt_of_lt_of_le h (hmx3 v hv))
      · exact Or.inr (lt_of_le_of_lt (hmn3 v hv) h)
    unfold un2si
    rw [hmx1, hmn1]
    simp only [ok_bind]
    rw [if_pos hcond]
  · intro hx0
    subst hx0
    exact ⟨rfl, rfl⟩

/-- Witness for C8, exercising every clause non-vacuously: the signed round
trip at `m = 3`, `x = [-1, 0, 1]`; the unsigned round trip at `m = 3`,
`x = [0, 1, 2]`; the out-of-range errors at `[2]` (signed) and `[3]`
(unsigned); and the empty-array `ValueError`s. -/
theorem C8_sign_roundtrip_witness :
    (∃ y, si2un 3 [-1, 0, 1] = Except.ok y ∧ un2si 3 y = Except.ok [-1, 0, 1]) ∧
    (∃ y, un2si 3 [0, 1, 2] = Except.ok y ∧ si2un 3 y = Except.ok [0, 1, 2]) ∧
    si2un 3 [2] = Except.error "Badly formed input data" ∧
    un2si 3 [3] = Except.error "Badly formed input data" ∧
    si2un 3 [] = Except.error "ValueError: zero-size array to reduction operation" ∧
    un2si 3 [] = Except.error "ValueError: zero-size array to reduction operation" :=
  ⟨(C8_sign_roundtrip 3 (by norm_num) [-1, 0, 1]).1 (by decide) (by decide),
   (C8_sign_roundtrip 3 (by norm_num) [0, 1, 2]).2.1 (by decide) (by decide) (by decide),
   (C8_sign_roundtrip 3 (by norm_num) [2]).2.2.1 ⟨2, by decide, by decide⟩,
   (C8_sign_roundtrip 3 (by norm_num) [3]).2.2.2.1 ⟨3, by decide, by decide⟩,
   ((C8_sign_roundtrip 3 (by norm_num) ([] : List Int)).2.2.2.2 rfl).1,
   ((C8_sign_roundtrip 3 (by norm_num) ([] : List Int)).2.2.2.2 rfl).2⟩

/-! ## Claim C9: (absence of) parameter validation in the constructor -/

/-- The fields assigned by the matrix-generation path of
`AmariSolve.__init__` (`self.k = n`, `self.n`, `self.m`, `self.l`,
`self.dim`, then `_generate_matrix` building `order_idx` and `A`).  The
source performs no validation of `(n, m, k)` on this path — the only
parameter check (`m` odd) is commented out — so the model is a total
function with no error outcome. -/
structure AmariBuild where
  n : Nat
  m : Nat
  l : Int
  dim : Nat
  order_idx : List Nat
  A : Mat ℚ

/-- `AmariSolve(n, m)` with forced generation (`filename=None`). -/
def amariInitGenerate (n m : Nat) : AmariBuild :=
  { n := n, m := m, l := lval m, dim := Pyent.dim n m,
    order_idx := order_idx_list n m, A := Amatrix ℚ n m n }

/-- C9 counterexample: at the malformed parameter set `n = 2`, `m = 1`
(`m < 2`), construction does not fail with an `InvalidParameter` error — it
completes, returning a degenerate state with an empty (`0`-row) matrix. -/
theorem C9_counterexample :
    amariInitGenerate 2 1 =
      { n := 2, m := 1, l := 0, dim := 0,
        order_idx := [0, 0, 0, 1], A := Amatrix ℚ 2 1 2 } ∧
    (Amatrix ℚ 2 1 2).rows = 0 ∧ rowsList 2 1 2 = [] := by
  refine ⟨?_, by decide, by decide⟩
  unfold amariInitGenerate
  congr 1

/-- C9 (amended): the constructor performs no parameter validation; for any
`n` and requested order `k`, building with the malformed alphabet size
`m = 1` completes without error, yielding an empty row enumeration, a
`0`-row matrix and a zero-dimensional state space. -/
theorem C9_no_validation (n k : Nat) :
    rowsList n 1 k = [] ∧
    (amariInitGenerate n 1).A.rows = 0 ∧
    (amariInitGenerate n 1).dim = 0 := by
  refine ⟨?_, ?_, ?_⟩
  · have h1 : ∀ ordi : Nat, recloopAux n 1 (ordi + 1) [] [] = [] := by
      intro ordi
      simp [recloopAux]
    simp [rowsList, h1]
  · show (order_idx_list n 1).getD n 0 = 0
    rw [order_idx_getD n 1 n le_rfl]
    unfold order_cum
    apply Finset.sum_eq_zero
    intro i _
    unfold order_length
    simp
  · show Pyent.dim n 1 = 0
    unfold Pyent.dim
    simp

/-! ## Sparse linear algebra model (`matvec`, transposition, slicing) -/

/-- `M.matvec(v)` (scipy sparse): matrix-vector product; scipy raises on a
length mismatch, modelled as `none`. -/
def matvec {R : Type} [Semiring R] (M : Mat R) (v : List R) : Option (List R) :=
  if v.length = M.cols then
    some ((List.range M.rows).map (fun r =>
      ∑ c ∈ Finset.range M.cols, M.entry r c * v.getD c 0))
  else none

/-- `M.T`. -/
def Mat.transpose {R : Type} (M : Mat R) : Mat R :=
  ⟨M.cols, M.rows, fun r c => M.entry c r⟩

noncomputable section RealModel

/-- Elementwise difference of vectors (numpy broadcasting of equal shapes;
a shape mismatch raises and is modelled as `none`). -/
def vsub (u v : List ℝ) : Option (List ℝ) :=
  if u.length = v.length then some (List.zipWith (fun a b => a - b) u v) else none

/-- `HAS_UMFPACK` is hardcoded `False` in the source (umfpack import
disabled because of a scipy bug). -/
def HAS_UMFPACK : Bool := false

/-- The attributes of a constructed `AmariSolve` used by the coordinate
transforms: the full (`k = n`) matrix `A`, and `B`, which is assigned (as
`self.A.T`) only inside `_umfpack`, itself called from `__init__` only when
`HAS_UMFPACK` holds. -/
structure AmariState where
  n : Nat
  m : Nat
  A : Mat ℝ
  B : Option (Mat ℝ)

/-- `AmariSolve(n, m)`: build/load the full matrix, then run `_umfpack`
(which assigns `self.B`) only if `HAS_UMFPACK`. -/
def amariInit (n m : Nat) : AmariState :=
  { n := n, m := m, A := Amatrix ℝ n m n,
    B := if HAS_UMFPACK then some (Amatrix ℝ n m n).transpose else none }

/-- `eta_from_p(p) = self.A.matvec(p[1:])`. -/
def eta_from_p (s : AmariState) (p : List ℝ) : Option (List ℝ) :=
  matvec s.A (p.drop 1)

/-- `theta_from_p(p)`: `b = log(p[1:]) - log(p[0])`, then (with
`HAS_UMFPACK` false, so the prefactored-umfpack branch is dead) the source
evaluates `spsolve(self.B, b)`.  `self.B` is an attribute that is assigned
nowhere outside `_umfpack`; when it is absent, Python raises
`AttributeError`.  The external sparse solver is a function parameter. -/
def theta_from_p (spsolve : Mat ℝ → List ℝ → List ℝ) (s : AmariState)
    (p : List ℝ) : Except String (List ℝ) :=
  let b := (p.drop 1).map (fun q => Real.log q - Real.log (p.getD 0 0))
  match s.B with
  | some B => Except.ok (spsolve B b)
  | none => Except.error "AttributeError: B"

/-- `_p_from_theta(theta)`: `pnorm(exp(self.A.T.matvec(theta)))` with
`pnorm(p) = p / (p.sum() + 1)`; `self.A` is the instance's full (`k = n`)
matrix. -/
def p_from_theta (n m : Nat) (theta : List ℝ) : Option (List ℝ) :=
  (matvec (Amatrix ℝ n m n).transpose theta).map (fun av =>
    (av.map Real.exp).map (fun q => q / ((av.map Real.exp).sum + 1)))

/-- The row slice `Asmall = self.A[:l, :]` taken by `solve`, with
`l = self.order_idx[k]` and the instance matrix built at `self.k = n`. -/
def Asmall (n m k : Nat) : Mat ℝ :=
  ⟨(order_idx_list n m).getD k 0, dim n m, (Amatrix ℝ n m n).entry⟩

/-- `_solvefunc(theta_un, Asmall, Bsmall, eta_sampled, l)`:
`b = exp(Bsmall.matvec(theta_un))`, result
`eta_sampled - Asmall.matvec(b)/(b.sum()+1)` (the final parameter `l` is
unused in the source body as well). -/
def solvefunc (theta_un : List ℝ) (As Bs : Mat ℝ) (eta_sampled : List ℝ)
    (l : Nat) : Option (List ℝ) :=
  (matvec Bs theta_un).bind (fun bv =>
    (matvec As (bv.map Real.exp)).bind (fun ab =>
      vsub eta_sampled (ab.map (fun q => q / ((bv.map Real.exp).sum + 1)))))

/-- The `eta_sampled` computed by `solve`: `Pr[:l]` when `eta_given` is set,
else `Asmall.matvec(Pr)` — the whole input vector enters the product. -/
def eta_sampled_of (n m k : Nat) (Pr : List ℝ) (eta_given : Bool) :
    Option (List ℝ) :=
  if eta_given then some (Pr.take ((order_idx_list n m).getD k 0))
  else matvec (Asmall n m k) Pr

/-- `AmariSolve.solve(Pr, k, eta_given, ic_offset)`: slice the matrix, form
`eta_sampled`, run the external `scipy.optimize.fsolve` root finder
(modelled as a function parameter, covering both the jacobian and plain
variants) on `_solvefunc` from the constant initial guess
`x0 = zeros(l) + ic_offset`, pad the solution with
`theta0 = zeros(order_idx[-1] - order_idx[k] - 1)` and return
`_p_from_theta` of the padded vector. -/
def solve (n m : Nat) (fsolve : (List ℝ → Option (List ℝ)) → List ℝ → List ℝ)
    (Pr : List ℝ) (k : Nat) (eta_given : Bool) (ic_offset : ℝ) :
    Option (List ℝ) :=
  let l := (order_idx_list n m).getD k 0
  let theta0 : List ℝ :=
    List.replicate ((order_idx_list n m).getD (n + 1) 0 - l - 1) 0
  let x0 : List ℝ := List.replicate l ic_offset
  let As := Asmall n m k
  let Bs := As.transpose
  (eta_sampled_of n m k Pr eta_given).bind (fun eta_sampled =>
    p_from_theta n m
      (fsolve (fun th => solvefunc th As Bs eta_sampled l) x0 ++ theta0))

end RealModel

/-! ## Claim C1: `theta_from_p` -/

/-- C1 (code bug): `theta_from_p` never returns the solution of the linear
system `B · theta = log(P[1:]) - log(P[0])`: because `HAS_UMFPACK` is
hardcoded `False`, `_umfpack` — the only assignment to `self.B` — never
runs, so the `spsolve(self.B, b)` line fails with an `AttributeError` on
every constructed instance and every input. -/
theorem C1_theta_from_p_attribute_error (n m : Nat)
    (spsolve : Mat ℝ → List ℝ → List ℝ) (p : List ℝ) :
    theta_from_p spsolve (amariInit n m) p = Except.error "AttributeError: B" := by
  unfold theta_from_p amariInit HAS_UMFPACK
  rfl

/-- C7 (code bug): the claimed round trip cannot even run: for every theta
whose `p_from_theta` image exists, `theta_from_p` applied to that image
fails with the `AttributeError` caused by the dead umfpack initialisation,
instead of recovering theta. -/
theorem C7_roundtrip_attribute_error (n m : Nat)
    (spsolve : Mat ℝ → List ℝ → List ℝ) (theta P : List ℝ)
    (hP : p_from_theta n m theta = some P) :
    theta_from_p spsolve (amariInit n m) P = Except.error "AttributeError: B" := by
  unfold theta_from_p amariInit HAS_UMFPACK
  rfl

/-- Evaluation of `_p_from_theta` at `n = 1`, `m = 2`, `theta = [0]`. -/
theorem p_from_theta_eval_n1 : p_from_theta 1 2 [(0 : ℝ)] = some [1 / 2] := by
  have hrows : (Amatrix ℝ 1 2 1).rows = 1 := by decide
  have hcols : (Amatrix ℝ 1 2 1).cols = 1 := by decide
  unfold p_from_theta matvec Mat.transpose
  simp only [hrows, hcols, List.length_singleton, if_pos rfl]
  simp only [Finset.sum_range_one, List.getD_cons_zero, mul_zero, List.range_succ,
    List.range_zero, List.nil_append, List.map_cons, List.map_nil, Real.exp_zero,
    List.sum_cons, List.sum_nil, Option.map_some']
  norm_num

/-- Witness for C7 at `n = 1`, `m = 2`, `theta = [0]`, `P = [1/2]`. -/
theorem C7_roundtrip_attribute_error_witness :
    p_from_theta 1 2 [(0 : ℝ)] = some [1 / 2] ∧
    theta_from_p (fun _ b => b) (amariInit 1 2) [1 / 2] =
      Except.error "AttributeError: B" :=
  ⟨p_from_theta_eval_n1,
    C7_roundtrip_attribute_error 1 2 (fun _ b => b) [0] [1 / 2] p_from_theta_eval_n1⟩

/-! ## Claim C10: `eta_given` uses only the first `order_idx[k]` entries -/

/-- C10: with `eta_given` true, `solve` reads only `Pr[:order_idx[k]]`:
inputs agreeing on that prefix produce identical results, so entries beyond
index `order_idx[k]` are ignored. -/
theorem C10_eta_given_prefix (n m k : Nat)
    (fsolve : (List ℝ → Option (List ℝ)) → List ℝ → List ℝ) (ic : ℝ)
    (Pr1 Pr2 : List ℝ)
    (h : Pr1.take ((order_idx_list n m).getD k 0) =
         Pr2.take ((order_idx_list n m).getD k 0)) :
    solve n m fsolve Pr1 k true ic = solve n m fsolve Pr2 k true ic := by
  unfold solve eta_sampled_of
  simp only [if_true]
  rw [h]

/-- Witness for C10 at `n = 1`, `m = 2`, `k = 1`, inputs `[1, 2]` and
`[1, 3]` agreeing on their first `order_idx[1] = 1` entries. -/
theorem C10_eta_given_prefix_witness :
    ([(1 : ℝ), 2].take ((order_idx_list 1 2).getD 1 0) =
      [(1 : ℝ), 3].take ((order_idx_list 1 2).getD 1 0)) ∧
    solve 1 2 (fun _ x => x) [(1 : ℝ), 2] 1 true (-0.01) =
      solve 1 2 (fun _ x => x) [(1 : ℝ), 3] 1 true (-0.01) :=
  ⟨rfl, C10_eta_given_prefix 1 2 1 (fun _ x => x) (-0.01) [1, 2] [1, 3] rfl⟩

/-- Unfolding an `Amatrix` entry at a row present in the enumeration. -/
theorem Amatrix_entry_eq (R : Type) [Zero R] [One R] (n m k r c : Nat)
    (rs : List Nat × List Nat) (h : (rowsList n m k)[r]? = some rs) :
    (Amatrix R n m k).entry r c = if c ∈ rowCols n m rs then (1 : R) else 0 := by
  show (match (rowsList n m k)[r]? with
    | some rs => if c ∈ rowCols n m rs then (1 : R) else (0 : R)
    | none => (0 : R)) = _
  rw [h]

/-! ## Claim C3: the sampled eta -/

/-- C3 counterexample: at `n = 1`, `m = 2`, `k = 1` (`dim = 1`), calling
`solve` with `eta_given` false on a full probability vector of length
`dim + 1` (`P = [1/2, 1/2]`, baseline first) does not yield
`eta_sampled = A_k · P[1:]`: the source computes `Asmall.matvec(Pr)` on the
whole input, which fails on the length-2 vector (dimension mismatch), while
`A_k · P[1:] = [1/2]` is well defined. -/
theorem C3_eta_sampled_counterexample :
    eta_sampled_of 1 2 1 [(1 : ℝ) / 2, 1 / 2] false = none ∧
    matvec (Asmall 1 2 1) ([(1 : ℝ) / 2, 1 / 2].drop 1) = some [1 / 2] ∧
    eta_sampled_of 1 2 1 [(1 : ℝ) / 2, 1 / 2] false ≠
      matvec (Asmall 1 2 1) ([(1 : ℝ) / 2, 1 / 2].drop 1) := by
  have hcols : (Asmall 1 2 1).cols = 1 := by decide
  have hrows : (Asmall 1 2 1).rows = 1 := by decide
  have hsome : (rowsList 1 2 1)[0]? = some ([1], [0]) := by decide
  have hmemb : 0 ∈ rowCols 1 2 ([1], [0]) := by decide
  have hentry : (Asmall 1 2 1).entry 0 0 = 1 := by
    have h := Amatrix_entry_eq ℝ 1 2 1 0 0 ([1], [0]) hsome
    rw [if_pos hmemb] at h
    exact h
  have h1 : eta_sampled_of 1 2 1 [(1 : ℝ) / 2, 1 / 2] false = none := by
    unfold eta_sampled_of matvec
    rw [hcols]
    norm_num
  have h2 : matvec (Asmall 1 2 1) ([(1 : ℝ) / 2, 1 / 2].drop 1) = some [1 / 2] := by
    unfold matvec
    rw [hcols, hrows]
    simp only [List.drop_succ_cons, List.drop_zero, List.length_singleton, if_pos rfl,
      Finset.sum_range_one, List.range_succ, List.range_zero, List.nil_append,
      List.map_cons, List.map_nil, List.getD_cons_zero, hentry]
    norm_num
  exact ⟨h1, h2, by rw [h1, h2]; exact fun h => Option.noConfusion h⟩

/-- C3 (amended): `solve`'s probability input is the baseline-excluded
vector `Pr` of length `dim` (as the module docstring states); with
`eta_given` false the sampled eta is `Asmall.matvec(Pr) = A_k · Pr`, which
is defined, and equals the first `order_idx[k]` entries of the full-matrix
`eta_from_p(P0 :: Pr)` for any baseline value `P0` prepended — that is, the
baseline entry of a full vector is excluded from the product. -/
theorem C3_eta_sampled (n m k : Nat) (hm : 1 ≤ m) (hkn : k ≤ n)
    (Pr : List ℝ) (P0 : ℝ) (hPr : Pr.length = dim n m) :
    eta_sampled_of n m k Pr false = matvec (Asmall n m k) Pr ∧
    (matvec (Asmall n m k) Pr).isSome = true ∧
    eta_sampled_of n m k Pr false =
      (eta_from_p (amariInit n m) (P0 :: Pr)).map
        (List.take ((order_idx_list n m).getD k 0)) := by
  have hAcols : (Amatrix ℝ n m n).cols = dim n m := rfl
  have hArows : (Amatrix ℝ n m n).rows = (order_idx_list n m).getD n 0 := rfl
  have hScols : (Asmall n m k).cols = dim n m := rfl
  have hSrows : (Asmall n m k).rows = (order_idx_list n m).getD k 0 := rfl
  have hSentry : (Asmall n m k).entry = (Amatrix ℝ n m n).entry := rfl
  have hA : matvec (Amatrix ℝ n m n) Pr =
      some ((List.range ((order_idx_list n m).getD n 0)).map (fun r =>
        ∑ c ∈ Finset.range (dim n m), (Amatrix ℝ n m n).entry r c * Pr.getD c 0)) := by
    unfold matvec
    rw [hAcols, hArows, if_pos hPr]
  have hAs : matvec (Asmall n m k) Pr =
      some ((List.range ((order_idx_list n m).getD k 0)).map (fun r =>
        ∑ c ∈ Finset.range (dim n m), (Amatrix ℝ n m n).entry r c * Pr.getD c 0)) := by
    unfold matvec
    rw [hScols, hSrows, hSentry, if_pos hPr]
  have hle : (order_idx_list n m).getD k 0 ≤ (order_idx_list n m).getD n 0 := by
    rw [order_idx_getD n m k hkn, order_idx_getD n m n le_rfl]
    exact order_cum_mono n m hkn
  refine ⟨rfl, ?_, ?_⟩
  · rw [hAs]
    rfl
  · show matvec (Asmall n m k) Pr = _
    unfold eta_from_p amariInit
    simp only [List.drop_succ_cons, List.drop_zero]
    rw [hA, hAs, Option.map_some', ← List.map_take, List.take_range,
      Nat.min_eq_left hle]

/-- Witness for C3 (amended) at `n = 1`, `m = 2`, `k = 1`,
`Pr = [1/2]`, `P0 = 1/2`. -/
theorem C3_eta_sampled_witness :
    (1 ≤ 2 ∧ 1 ≤ 1 ∧ [(1 : ℝ) / 2].length = dim 1 2) ∧
    (eta_sampled_of 1 2 1 [(1 : ℝ) / 2] false = matvec (Asmall 1 2 1) [(1 : ℝ) / 2] ∧
    (matvec (Asmall 1 2 1) [(1 : ℝ) / 2]).isSome = true ∧
    eta_sampled_of 1 2 1 [(1 : ℝ) / 2] false =
      (eta_from_p (amariInit 1 2) ((1 : ℝ) / 2 :: [(1 : ℝ) / 2])).map
        (List.take ((order_idx_list 1 2).getD 1 0))) :=
  ⟨⟨by norm_num, le_rfl, by norm_num [dim]⟩,
    C3_eta_sampled 1 2 1 (by norm_num) le_rfl [(1 : ℝ) / 2] ((1 : ℝ) / 2)
      (by norm_num [dim])⟩

/-! ## Claim C2: the shape of `solve`'s output -/

/-- Componentwise division distributes over a list sum. -/
theorem sum_map_div (p : List ℝ) (z : ℝ) :
    (p.map (fun q => q / z)).sum = p.sum / z := by
  induction p with
  | nil => simp
  | cons a p ih => simp [add_div, ih]

/-- Everything `_p_from_theta` can return: a vector of `dim` non-negative
entries with total mass at most 1 (namely `S/(S+1)` for `S` the sum of the
exponentials). -/
theorem p_from_theta_props (n m : Nat) (theta : List ℝ)
    (ht : theta.length = (order_idx_list n m).getD n 0) :
    ∃ P, p_from_theta n m theta = some P ∧ P.length = dim n m ∧
      (∀ q ∈ P, 0 ≤ q) ∧ P.sum ≤ 1 := by
  have hcols : (Amatrix ℝ n m n).transpose.cols = (order_idx_list n m).getD n 0 := rfl
  have hrows : (Amatrix ℝ n m n).transpose.rows = dim n m := rfl
  unfold p_from_theta matvec
  rw [hcols, hrows, if_pos ht, Option.map_some']
  refine ⟨_, rfl, by simp, ?_, ?_⟩
  · intro q hq
    rw [List.mem_map] at hq
    obtain ⟨e, he, rfl⟩ := hq
    rw [List.mem_map] at he
    obtain ⟨a, _, rfl⟩ := he
    have hS : 0 ≤ (List.map Real.exp ((List.range (dim n m)).map (fun r =>
        ∑ c ∈ Finset.range ((order_idx_list n m).getD n 0),
          (Amatrix ℝ n m n).transpose.entry r c * theta.getD c 0))).sum := by
      apply List.sum_nonneg
      intro x hx
      rw [List.mem_map] at hx
      obtain ⟨y, _, rfl⟩ := hx
      exact le_of_lt (Real.exp_pos y)
    have := Real.exp_pos a
    positivity
  · rw [sum_map_div]
    set S := (List.map Real.exp ((List.range (dim n m)).map (fun r =>
        ∑ c ∈ Finset.range ((order_idx_list n m).getD n 0),
          (Amatrix ℝ n m n).transpose.entry r c * theta.getD c 0))).sum with hSdef
    have hS : 0 ≤ S := by
      apply List.sum_nonneg
      intro x hx
      rw [List.mem_map] at hx
      obtain ⟨y, _, rfl⟩ := hx
      exact le_of_lt (Real.exp_pos y)
    rw [div_le_one (by linarith)]
    linarith

/-- C2 (amended): `solve` (here on the `eta_given` path, with the external
root finder modelled as a shape-preserving function) returns a vector of
`dim` — not `dim + 1` — non-negative reals whose sum is at most 1; the
baseline probability is the complement `1 - sum`, and prepending it yields
the `dim+1`-entry distribution summing exactly to 1 described by the
spec. -/
theorem C2_solve_output (n m k : Nat) (hm : 1 ≤ m) (hkn : k ≤ n)
    (fsolve : (List ℝ → Option (List ℝ)) → List ℝ → List ℝ)
    (hf : ∀ F x0, (fsolve F x0).length = x0.length)
    (Pr : List ℝ) (ic : ℝ) :
    ∃ P, solve n m fsolve Pr k true ic = some P ∧
      P.length = dim n m ∧ (∀ q ∈ P, 0 ≤ q) ∧ P.sum ≤ 1 ∧
      ((1 - P.sum) :: P).sum = 1 ∧ 0 ≤ 1 - P.sum := by
  have hl : (order_idx_list n m).getD k 0 ≤ dim n m := by
    rw [order_idx_getD n m k hkn, ← order_cum_n n m hm]
    exact order_cum_mono n m hkn
  have hstruct : solve n m fsolve Pr k true ic =
      p_from_theta n m
        (fsolve (fun th => solvefunc th (Asmall n m k) (Asmall n m k).transpose
            (Pr.take ((order_idx_list n m).getD k 0)) ((order_idx_list n m).getD k 0))
          (List.replicate ((order_idx_list n m).getD k 0) ic) ++
         List.replicate ((order_idx_list n m).getD (n + 1) 0 -
            (order_idx_list n m).getD k 0 - 1) 0) := rfl
  have hlen : (fsolve (fun th => solvefunc th (Asmall n m k) (Asmall n m k).transpose
        (Pr.take ((order_idx_list n m).getD k 0)) ((order_idx_list n m).getD k 0))
      (List.replicate ((order_idx_list n m).getD k 0) ic) ++
      List.replicate ((order_idx_list n m).getD (n + 1) 0 -
        (order_idx_list n m).getD k 0 - 1) 0).length =
      (order_idx_list n m).getD n 0 := by
    rw [List.length_append, hf, List.length_replicate, List.length_replicate,
      order_idx_last, order_idx_getD n m n le_rfl, order_cum_n n m hm]
    omega
  obtain ⟨P, hP, h1, h2, h3⟩ := p_from_theta_props n m _ hlen
  refine ⟨P, by rw [hstruct]; exact hP, h1, h2, h3, ?_, by linarith⟩
  rw [List.sum_cons]
  ring

/-- Witness for C2 (amended) at `n = 1`, `m = 2`, `k = 1`, with the
constant-zero stub for the external root finder. -/
theorem C2_solve_output_witness :
    (1 ≤ 2 ∧ 1 ≤ 1 ∧
      ∀ (F : List ℝ → Option (List ℝ)) (x0 : List ℝ),
        ((fun (_ : List ℝ → Option (List ℝ)) (x0 : List ℝ) =>
          x0.map (fun _ => (0 : ℝ))) F x0).length = x0.length) ∧
    ∃ P, solve 1 2 (fun _ x0 => x0.map (fun _ => (0 : ℝ))) [(1 : ℝ) / 2] 1 true
        (-0.01) = some P ∧
      P.length = dim 1 2 ∧ (∀ q ∈ P, 0 ≤ q) ∧ P.sum ≤ 1 ∧
      ((1 - P.sum) :: P).sum = 1 ∧ 0 ≤ 1 - P.sum :=
  ⟨⟨by norm_num, le_rfl, fun F x0 => List.length_map x0 _⟩,
    C2_solve_output 1 2 1 (by norm_num) le_rfl _
      (fun F x0 => List.length_map x0 _) [(1 : ℝ) / 2] (-0.01)⟩

/-- C2 counterexample: at `n = 1`, `m = 2`, `k = 1` (`dim = 1`), with the
zero stub for the root finder, `solve` returns `[1/2]` — one entry, not
`dim + 1 = 2`, with sum `1/2 ≠ 1` — so the output is not the claimed
`dim+1`-entry unit-sum ProbabilityVector. -/
theorem C2_solve_counterexample :
    solve 1 2 (fun _ x0 => x0.map (fun _ => (0 : ℝ))) [(1 : ℝ) / 2] 1 true
      (-0.01) = some [1 / 2] ∧
    ¬ ([(1 : ℝ) / 2].length = dim 1 2 + 1) ∧ ([(1 : ℝ) / 2]).sum ≠ 1 := by
  refine ⟨?_, by norm_num [dim], by norm_num⟩
  have hstruct : solve 1 2 (fun _ x0 => x0.map (fun _ => (0 : ℝ)))
      [(1 : ℝ) / 2] 1 true (-0.01) =
      p_from_theta 1 2 ((List.replicate ((order_idx_list 1 2).getD 1 0)
          (-0.01 : ℝ)).map (fun _ => (0 : ℝ)) ++
        List.replicate ((order_idx_list 1 2).getD (1 + 1) 0 -
          (order_idx_list 1 2).getD 1 0 - 1) 0) := rfl
  rw [hstruct]
  have hl1 : (order_idx_list 1 2).getD 1 0 = 1 := by decide
  have hl2 : (order_idx_list 1 2).getD (1 + 1) 0 = 2 := by decide
  rw [hl1, hl2]
  norm_num
  exact p_from_theta_eval_n1

/-! ## Claim C5: the Newton-Raphson residual -/

/-- Elementwise subtraction against a range-map list. -/
theorem zipWith_sub_range_map (u : List ℝ) (l : Nat) (hu : u.length = l)
    (g : Nat → ℝ) :
    List.zipWith (fun a b => a - b) u ((List.range l).map g) =
      (List.range l).map (fun r => u.getD r 0 - g r) := by
  apply List.ext_getElem
  · simp [hu]
  · intro i h1 h2
    simp only [List.length_zipWith, List.length_map, List.length_range, hu,
      Nat.min_self] at h1
    simp only [List.getElem_zipWith, List.getElem_map, List.getElem_range]
    rw [List.getD_eq_getElem u 0 (by omega)]

/-- The residual formula of the spec (§4.4), transcribed directly:
`F(theta) = eta_sampled - A_k · exp(B_k · theta) / Z` with
`Z = exp(B_k · theta).sum() + 1` and `B_k = A_k^T` (so the inner exponent at
state `c` is `∑ i, A_k[i, c] · theta[i]`). -/
noncomputable def F_spec (n m k : Nat) (eta_sampled theta : List ℝ) : List ℝ :=
  (List.range ((order_idx_list n m).getD k 0)).map (fun r =>
    eta_sampled.getD r 0 -
      (∑ c ∈ Finset.range (dim n m), (Asmall n m k).entry r c *
        Real.exp (∑ i ∈ Finset.range ((order_idx_list n m).getD k 0),
          (Asmall n m k).entry i c * theta.getD i 0)) /
      ((∑ c ∈ Finset.range (dim n m),
        Real.exp (∑ i ∈ Finset.range ((order_idx_list n m).getD k 0),
          (Asmall n m k).entry i c * theta.getD i 0)) + 1))

/-- C5: the residual driven to zero by the solver — `_solvefunc` as wired by
`solve`, i.e. with `Bsmall = Asmall.T` — equals the spec's formula
`F(theta) = eta_sampled - A_k · exp(B_k · theta) / Z`. -/
theorem C5_residual (n m k : Nat) (theta eta_sampled : List ℝ)
    (ht : theta.length = (order_idx_list n m).getD k 0)
    (he : eta_sampled.length = (order_idx_list n m).getD k 0) :
    solvefunc theta (Asmall n m k) (Asmall n m k).transpose eta_sampled
      ((order_idx_list n m).getD k 0) = some (F_spec n m k eta_sampled theta) := by
  have hBrows : (Asmall n m k).transpose.rows = dim n m := rfl
  have hBcols : (Asmall n m k).transpose.cols = (order_idx_list n m).getD k 0 := rfl
  have hBentry : ∀ c i, (Asmall n m k).transpose.entry c i =
      (Asmall n m k).entry i c := fun _ _ => rfl
  have hArows : (Asmall n m k).rows = (order_idx_list n m).getD k 0 := rfl
  have hAcols : (Asmall n m k).cols = dim n m := rfl
  -- the exponentiated vector b = exp(Bsmall.matvec(theta)) as a range map
  have hb : ((List.range (dim n m)).map (fun c =>
        ∑ i ∈ Finset.range ((order_idx_list n m).getD k 0),
          (Asmall n m k).transpose.entry c i * theta.getD i 0)).map Real.exp =
      (List.range (dim n m)).map (fun c =>
        Real.exp (∑ i ∈ Finset.range ((order_idx_list n m).getD k 0),
          (Asmall n m k).entry i c * theta.getD i 0)) := by
    rw [List.map_map]
    apply List.map_congr_left
    intro c _
    simp only [Function.comp_apply]
    rfl
  unfold solvefunc matvec vsub
  rw [hBcols, hBrows, hArows, hAcols, if_pos ht, Option.some_bind, hb]
  rw [if_pos (by simp), Option.some_bind]
  have hcond : eta_sampled.length = (((List.range ((order_idx_list n m).getD k 0)).map
      (fun r => ∑ c ∈ Finset.range (dim n m), (Asmall n m k).entry r c *
        ((List.range (dim n m)).map (fun c =>
          Real.exp (∑ i ∈ Finset.range ((order_idx_list n m).getD k 0),
            (Asmall n m k).entry i c * theta.getD i 0))).getD c 0)).map
      (fun q => q / (((List.range (dim n m)).map (fun c =>
        Real.exp (∑ i ∈ Finset.range ((order_idx_list n m).getD k 0),
          (Asmall n m k).entry i c * theta.getD i 0))).sum + 1))).length := by
    simp [he]
  rw [if_pos hcond, List.map_map, zipWith_sub_range_map eta_sampled _ he]
  refine congrArg some (List.map_congr_left ?_)
  intro r hr
  simp only [Function.comp_apply]
  have hnum : ∀ z : ℝ, (∑ c ∈ Finset.range (dim n m), (Asmall n m k).entry r c *
      ((List.range (dim n m)).map (fun c =>
        Real.exp (∑ i ∈ Finset.range ((order_idx_list n m).getD k 0),
          (Asmall n m k).entry i c * theta.getD i 0))).getD c 0) / z =
      (∑ c ∈ Finset.range (dim n m), (Asmall n m k).entry r c *
        Real.exp (∑ i ∈ Finset.range ((order_idx_list n m).getD k 0),
          (Asmall n m k).entry i c * theta.getD i 0)) / z := by
    intro z
    congr 1
    apply Finset.sum_congr rfl
    intro c hc
    rw [Finset.mem_range] at hc
    rw [getD_map_range _ _ _ _ hc]
  rw [hnum, sum_map_range]

/-- Witness for C5 at `n = 1`, `m = 2`, `k = 1`, `theta = [0]`,
`eta_sampled = [1/2]`. -/
theorem C5_residual_witness :
    ([(0 : ℝ)].length = (order_idx_list 1 2).getD 1 0 ∧
      [(1 : ℝ) / 2].length = (order_idx_list 1 2).getD 1 0) ∧
    solvefunc [(0 : ℝ)] (Asmall 1 2 1) (Asmall 1 2 1).transpose [(1 : ℝ) / 2]
      ((order_idx_list 1 2).getD 1 0) = some (F_spec 1 2 1 [(1 : ℝ) / 2] [(0 : ℝ)]) :=
  ⟨⟨by simp; decide, by simp; decide⟩,
    C5_residual 1 2 1 [(0 : ℝ)] [(1 : ℝ) / 2] (by simp; decide) (by simp; decide)⟩

end Pyent
